import Mathlib

/-!
Verification of the ETF sampler library core (`etf-rs`).

This file gives a shallow embedding, in exact arithmetic, of the parts of the
library that the specification claims talk about:

* the numeric primitives of `src/num.rs` (`Float::gen`, `Float::bitxor`,
  `UInt::arithmetic_right_shift`), with IEEE-754 bit patterns modelled as
  natural numbers below `2^w` and float values modelled as exact rationals;
* the hot-path samplers of `src/primitives.rs` (`DistAny`, `DistAnyTailed`,
  `DistCentral`, `DistCentralTailed`, `DistSymmetric`, `DistSymmetricTailed`,
  `process_table`, `compute_tail_switch`);
* the Newton tabulator of `src/primitives/util.rs` (`newton_tabulation` and
  its tri-diagonal solver `solve_tma`);
* the parameter-validation prefixes of the distribution constructors in
  `src/distributions/*.rs`.

Machine floats are embedded as `ℚ` (field operations are exact; `x / 0` is `0`
in `ℚ` where the float code would produce an infinity or NaN, which matters
nowhere below except where explicitly commented).  Machine integers `u32`/`u64`
are embedded as `ℕ` together with explicit bounds `< 2^w`.  The random source
is an infinite stream of words, one word handed out per `next_u32`/`next_u64`
call.
-/

namespace Etf

/-! ### Word-level primitives (`src/num.rs`) -/

/-- `UInt::arithmetic_right_shift` of `src/num.rs`: `((x as iN) >> k) as uN`
for a `w`-bit word `x`.  For a word with a clear top bit this is the logical
shift; for a set top bit the vacated top `k` positions are filled with ones,
which adds `2^w - 2^(w-k)` to the logical shift. -/
def arithmeticRightShift (w : ℕ) (x k : ℕ) : ℕ :=
  if x < 2 ^ (w - 1) then x >>> k else x >>> k + (2 ^ w - 2 ^ (w - k))

/-- `Float::gen` of `src/num.rs`: draw a word `r`, shift right by
`BITS - SIGNIFICAND_BITS - 1`, scale by `2^-(SIGNIFICAND_BITS+1)`.
`sig` is `T::SIGNIFICAND_BITS` (23 for `f32`, 52 for `f64`) and `w` is
`T::UInt::BITS`.  The float constant `scale = ONE / cast(ONE << (sig+1))` is
the exact power of two `2^-(sig+1)` and the final product is exact, so the
rational value below is the value the float code computes. -/
def floatGen (w sig : ℕ) (r : ℕ) : ℚ :=
  (1 / 2 ^ (sig + 1)) * ((r >>> (w - sig - 1) : ℕ) : ℚ)

/-! ### IEEE-754 bit-pattern model (`Float::bitxor`, `Float::from_bits/to_bits`)

A `w = 1 + e + m`-bit pattern `b < 2^w` splits into a sign bit, an `e`-bit
biased exponent and an `m`-bit mantissa.  `interp` decodes a pattern into
either NaN, a signed infinity, or an exact rational value (normal or
subnormal).  `Float::bitxor self u = from_bits (to_bits self ^^^ u)` is
modelled directly by `Nat.xor` on patterns. -/

/-- The value of an IEEE-754 bit pattern: NaN, a signed infinity
(`negative = true` for `-∞`), or a finite exact rational. -/
inductive Fp where
  | nan : Fp
  | inf (negative : Bool) : Fp
  | finite (q : ℚ) : Fp
deriving DecidableEq

/-- IEEE-754 negation on decoded values: NaN stays NaN, infinities and finite
values flip sign. -/
def Fp.neg : Fp → Fp
  | .nan => .nan
  | .inf s => .inf (!s)
  | .finite q => .finite (-q)

/-- Sign bit of a `(1+e+m)`-bit pattern. -/
def fpSign (e m b : ℕ) : ℕ := b / 2 ^ (e + m)

/-- Biased exponent field of a `(1+e+m)`-bit pattern. -/
def fpExp (e m b : ℕ) : ℕ := b / 2 ^ m % 2 ^ e

/-- Mantissa field of a `(1+e+m)`-bit pattern. -/
def fpMant (m b : ℕ) : ℕ := b % 2 ^ m

/-- Decode a `(1+e+m)`-bit IEEE-754 pattern.  The exponent bias is
`2^(e-1) - 1`; an all-ones exponent encodes NaN (mantissa nonzero) or an
infinity (mantissa zero); a zero exponent encodes a subnormal. -/
def interp (e m b : ℕ) : Fp :=
  let s := fpSign e m b
  let ex := fpExp e m b
  let ma := fpMant m b
  let bias : ℤ := 2 ^ (e - 1) - 1
  if ex = 2 ^ e - 1 then
    if ma = 0 then .inf (s = 1) else .nan
  else if ex = 0 then
    .finite ((if s = 0 then 1 else -1) * (ma : ℚ) * (2 : ℚ) ^ (1 - bias - m))
  else
    .finite ((if s = 0 then 1 else -1) * ((2 ^ m + ma : ℕ) : ℚ) *
      (2 : ℚ) ^ ((ex : ℤ) - bias - m))

/-! ### Hot-path sampler model (`src/primitives.rs`)

Float values are exact rationals here.  `T::bitxor(c, s)` with
`s ∈ {0, sign_mask}` is the sign fold of the symmetric samplers: by the
bit-pattern theorem proved below for `interp`, XOR with the sign mask negates
every non-NaN value and XOR with `0` is the identity, so on rational values
the fold is `applySign`. -/

/-- The sign fold `T::bitxor(c, s)` for `s ∈ {0, sign_mask}`, on decoded
(rational) values. -/
def applySign (s : ℕ) (c : ℚ) : ℚ := if s = 0 then c else -c

/-- One cell of the compiled sampler table (`Datum` of
`src/primitives/storage.rs`), with the float fields decoded to rationals. -/
structure DatumQ where
  alpha : ℚ
  beta : ℚ
  wedgeSwitch : ℕ
deriving DecidableEq

/-- A univariate function together with its wedge acceptance test
(`UnivariateFn` of `src/primitives.rs`).  `test x a b` defaults to
`a * eval x > b` but may be overridden (e.g. the Cauchy reciprocal form). -/
structure UnivFn where
  eval : ℚ → ℚ
  test : ℚ → ℚ → ℚ → Bool

/-- The default `UnivariateFn::test`: `a * f(x) > b`. -/
def UnivFn.ofEval (f : ℚ → ℚ) : UnivFn :=
  { eval := f, test := fun x a b => decide (a * f x > b) }

/-- `self.round() as U` of `src/num.rs` (`Float::round_as_uint`): Rust's
`round` rounds half away from zero and the `as` cast saturates negative values
to `0`.  For every rational `q`, `⌊q + 1/2⌋` clamped to `ℕ` agrees with that
composite on all inputs the library produces. -/
def roundQ (q : ℚ) : ℕ := (⌊q + 1 / 2⌋).toNat

/-- One cell of `process_table` of `src/primitives.rs`: compute the wedge
switch `w = (yinf/ysup) * tail_switch`; if the bit loss
`SIGNIFICAND_BITS - log2 w` is at most `max_bit_loss = 1`, emit the baseline
coefficients, otherwise force wedge sampling.  In exact arithmetic the float
test `sig - log2 w ≤ 1` is `2^(sig-1) ≤ w` (`log2` is strictly monotone and
exact at powers of two; for `w ≤ 0` the float comparison is false — NaN —
matching `2^(sig-1) ≤ w` being false). -/
def processCell (sig : ℕ) (tailSwitch : ℕ) (xl xr yinf ysup x0 : ℚ) : DatumQ :=
  let w : ℚ := yinf / ysup * (tailSwitch : ℚ)
  if (2 : ℚ) ^ (sig - 1) ≤ w then
    { alpha := (xr - xl) / w, beta := xl - x0, wedgeSwitch := roundQ w }
  else
    { alpha := 0, beta := xl - x0, wedgeSwitch := 0 }

/-- An initialisation table (`InitTable`) with `n` cells, decoded to rational
arrays: `x` has `n+1` nodes, `yinf`/`ysup` have `n` entries.  Index functions
are total; only indices `≤ n` (resp. `< n`) are meaningful. -/
structure InitTableQ where
  x : ℕ → ℚ
  yinf : ℕ → ℚ
  ysup : ℕ → ℚ

/-- `process_table` of `src/primitives.rs`: one `Datum` per cell `i < n`, plus
the sentinel cell `n` carrying only `beta = x[n] - x0`. -/
def processTable (sig n : ℕ) (t : InitTableQ) (x0 : ℚ) (tailSwitch : ℕ) : ℕ → DatumQ :=
  fun i =>
    if i < n then processCell sig tailSwitch (t.x i) (t.x (i + 1)) (t.yinf i) (t.ysup i) x0
    else { alpha := 0, beta := t.x n - x0, wedgeSwitch := 0 }

/-- The scalar `scaled_xysup = (x[1] - x[0]) * ysup[0] / tail_switch` computed
by `process_table`. -/
def scaledXysup (t : InitTableQ) (tailSwitch : ℕ) : ℚ :=
  (t.x 1 - t.x 0) * t.ysup 0 / (tailSwitch : ℚ)

/-- The total rectangle area `Σ (x[i+1] - x[i]) * ysup[i]` accumulated by
`compute_tail_switch`. -/
def tableArea (n : ℕ) (t : InitTableQ) : ℚ :=
  (List.range n).foldl (fun a i => a + (t.x (i + 1) - t.x i) * t.ysup i) 0

/-- `compute_tail_switch` of `src/primitives.rs`:
`round(max_switch * area / (area + tail_area))` with
`max_switch = 2^(w - P::BITS - sign_bits) - 1`. -/
def computeTailSwitch (w pbits n : ℕ) (t : InitTableQ) (tailArea : ℚ)
    (isSymmetric : Bool) : ℕ :=
  let signBitWidth := if isSymmetric then 1 else 0
  let maxSwitch : ℕ := (1 <<< (w - pbits - signBitWidth)) - 1
  let area := tableArea n t
  roundQ ((maxSwitch : ℚ) * (area / (area + tailArea)))

/-! ### The six sampler hot loops

The random source is a `Stream' ℕ` of uniform words.  One iteration of each
`sample` loop is a step function; `StepRes` tags which of the syntactically
distinct return points of the source loop fired:

* `fast`: the rectangular fast path `u <= d.wedge_switch`;
* `tailHit`: the tail envelope accepted (tailed variants only);
* `accept`: the wedge test accepted;
* `reject`: the iteration fell through and the loop restarts.

Each constructor carries the stream as left for the next consumer. -/

/-- Result of one iteration of a sampler loop. -/
inductive StepRes where
  | fast (v : ℚ) (rest : Stream' ℕ)
  | tailHit (v : ℚ) (rest : Stream' ℕ)
  | accept (v : ℚ) (rest : Stream' ℕ)
  | reject (rest : Stream' ℕ)

/-- A tail sampling envelope (`Envelope::try_sample`): consumes words from the
stream and either yields a sample or rejects. -/
def Envelope : Type := Stream' ℕ → Option ℚ × Stream' ℕ

/-- One iteration of `DistAny::sample` (`src/primitives.rs`).  `w` is
`T::UInt::BITS`, `pbits` is `P::BITS`, `sig` is `T::SIGNIFICAND_BITS`.  The
fast-path candidate `cast(u).mul_add(alpha, beta)` (or the scalar fallback
`alpha * cast(u) + beta` without the `fma` feature) is the exact rational
`u * alpha + beta` either way. -/
def distAnyStep (w pbits sig : ℕ) (data : ℕ → DatumQ) (func : UnivFn) (sxy : ℚ)
    (st : Stream' ℕ) : StepRes :=
  let uMask : ℕ := (1 <<< (w - pbits)) - 1
  let r := st 0
  let u := r &&& uMask
  let i := r >>> (w - pbits)
  let d := data i
  if u ≤ d.wedgeSwitch then
    .fast ((u : ℚ) * d.alpha + d.beta) (st.drop 1)
  else
    let dx := (data (i + 1)).beta - d.beta
    let x := d.beta + floatGen w sig (st 1) * dx
    if func.test x dx ((u : ℚ) * sxy) then .accept x (st.drop 2)
    else .reject (st.drop 2)

/-- One iteration of `DistAnyTailed::sample` (`src/primitives.rs`). -/
def distAnyTailedStep (w pbits sig : ℕ) (data : ℕ → DatumQ) (func : UnivFn)
    (sxy : ℚ) (tailEnvelope : Envelope) (tailSwitch : ℕ) (st : Stream' ℕ) : StepRes :=
  let uMask : ℕ := (1 <<< (w - pbits)) - 1
  let r := st 0
  let u := r &&& uMask
  let i := r >>> (w - pbits)
  let d := data i
  if u ≤ d.wedgeSwitch then
    .fast ((u : ℚ) * d.alpha + d.beta) (st.drop 1)
  else if tailSwitch < u then
    match tailEnvelope (st.drop 1) with
    | (some x, rest) => .tailHit x rest
    | (none, rest) => .reject rest
  else
    let dx := (data (i + 1)).beta - d.beta
    let x := d.beta + floatGen w sig (st 1) * dx
    if func.test x dx ((u : ℚ) * sxy) then .accept x (st.drop 2)
    else .reject (st.drop 2)

/-- One iteration of `DistCentral::sample` (`src/primitives.rs`): a sign bit
is peeled off the top of the word, the index comes from the `P::BITS` bits
below it (`arithmetic_right_shift` then `& i_mask`), and every return value
goes through the sign fold `T::bitxor(·, s)`. -/
def distCentralStep (w pbits sig : ℕ) (data : ℕ → DatumQ) (func : UnivFn)
    (sxy : ℚ) (st : Stream' ℕ) : StepRes :=
  let uMask : ℕ := (1 <<< (w - pbits - 1)) - 1
  let iMask : ℕ := (1 <<< pbits) - 1
  let sMask : ℕ := 1 <<< (w - 1)
  let r := st 0
  let u := r &&& uMask
  let r' := arithmeticRightShift w r (w - pbits - 1)
  let i := r' &&& iMask
  let s := r' &&& sMask
  let d := data i
  if u ≤ d.wedgeSwitch then
    .fast (applySign s ((u : ℚ) * d.alpha + d.beta)) (st.drop 1)
  else
    let dx := (data (i + 1)).beta - d.beta
    let x := d.beta + floatGen w sig (st 1) * dx
    if func.test x dx ((u : ℚ) * sxy) then .accept (applySign s x) (st.drop 2)
    else .reject (st.drop 2)

/-- One iteration of `DistCentralTailed::sample` (`src/primitives.rs`). -/
def distCentralTailedStep (w pbits sig : ℕ) (data : ℕ → DatumQ) (func : UnivFn)
    (sxy : ℚ) (tailEnvelope : Envelope) (tailSwitch : ℕ) (st : Stream' ℕ) : StepRes :=
  let uMask : ℕ := (1 <<< (w - pbits - 1)) - 1
  let iMask : ℕ := (1 <<< pbits) - 1
  let sMask : ℕ := 1 <<< (w - 1)
  let r := st 0
  let u := r &&& uMask
  let r' := arithmeticRightShift w r (w - pbits - 1)
  let i := r' &&& iMask
  let s := r' &&& sMask
  let d := data i
  if u ≤ d.wedgeSwitch then
    .fast (applySign s ((u : ℚ) * d.alpha + d.beta)) (st.drop 1)
  else if tailSwitch < u then
    match tailEnvelope (st.drop 1) with
    | (some x, rest) => .tailHit (applySign s x) rest
    | (none, rest) => .reject rest
  else
    let dx := (data (i + 1)).beta - d.beta
    let x := d.beta + floatGen w sig (st 1) * dx
    if func.test x dx ((u : ℚ) * sxy) then .accept (applySign s x) (st.drop 2)
    else .reject (st.drop 2)

/-- One iteration of `DistSymmetric::sample` (`src/primitives.rs`): like
`DistCentral` but translated by the origin `x0` (the table's `beta` holds
`x[i] - x0` and every return value adds `x0` back). -/
def distSymmetricStep (w pbits sig : ℕ) (data : ℕ → DatumQ) (func : UnivFn)
    (sxy : ℚ) (x0 : ℚ) (st : Stream' ℕ) : StepRes :=
  let uMask : ℕ := (1 <<< (w - pbits - 1)) - 1
  let iMask : ℕ := (1 <<< pbits) - 1
  let sMask : ℕ := 1 <<< (w - 1)
  let r := st 0
  let u := r &&& uMask
  let r' := arithmeticRightShift w r (w - pbits - 1)
  let i := r' &&& iMask
  let s := r' &&& sMask
  let d := data i
  if u ≤ d.wedgeSwitch then
    .fast (x0 + applySign s ((u : ℚ) * d.alpha + d.beta)) (st.drop 1)
  else
    let dx := (data (i + 1)).beta - d.beta
    let deltaX := d.beta + floatGen w sig (st 1) * dx
    if func.test (x0 + deltaX) dx ((u : ℚ) * sxy) then
      .accept (x0 + applySign s deltaX) (st.drop 2)
    else .reject (st.drop 2)

/-- One iteration of `DistSymmetricTailed::sample` (`src/primitives.rs`).  A
tail sample `x` is folded as `x0 + bitxor(x - x0, s)`. -/
def distSymmetricTailedStep (w pbits sig : ℕ) (data : ℕ → DatumQ) (func : UnivFn)
    (sxy : ℚ) (x0 : ℚ) (tailEnvelope : Envelope) (tailSwitch : ℕ)
    (st : Stream' ℕ) : StepRes :=
  let uMask : ℕ := (1 <<< (w - pbits - 1)) - 1
  let iMask : ℕ := (1 <<< pbits) - 1
  let sMask : ℕ := 1 <<< (w - 1)
  let r := st 0
  let u := r &&& uMask
  let r' := arithmeticRightShift w r (w - pbits - 1)
  let i := r' &&& iMask
  let s := r' &&& sMask
  let d := data i
  if u ≤ d.wedgeSwitch then
    .fast (x0 + applySign s ((u : ℚ) * d.alpha + d.beta)) (st.drop 1)
  else if tailSwitch < u then
    match tailEnvelope (st.drop 1) with
    | (some x, rest) => .tailHit (x0 + applySign s (x - x0)) rest
    | (none, rest) => .reject rest
  else
    let dx := (data (i + 1)).beta - d.beta
    let deltaX := d.beta + floatGen w sig (st 1) * dx
    if func.test (x0 + deltaX) dx ((u : ℚ) * sxy) then
      .accept (x0 + applySign s deltaX) (st.drop 2)
    else .reject (st.drop 2)

/-- The sampler loop: iterate a step function until it returns, with fuel
bounding the number of iterations (the source loops unboundedly; `none` means
the fuel ran out with every iteration rejected). -/
def sampleLoop (step : Stream' ℕ → StepRes) : ℕ → Stream' ℕ → Option (ℚ × Stream' ℕ)
  | 0, _ => none
  | fuel + 1, st =>
    match step st with
    | .fast v rest => some (v, rest)
    | .tailHit v rest => some (v, rest)
    | .accept v rest => some (v, rest)
    | .reject rest => sampleLoop step fuel rest

/-- `DistCentral::new` + `sample` (`src/primitives.rs`): the table is compiled
with origin `0` and `max_switch = 2^(w - P::BITS - 1) - 1`. -/
def distCentralSample (w pbits sig n : ℕ) (func : UnivFn) (t : InitTableQ)
    (fuel : ℕ) (st : Stream' ℕ) : Option (ℚ × Stream' ℕ) :=
  let maxSwitch : ℕ := (1 <<< (w - pbits - 1)) - 1
  sampleLoop
    (distCentralStep w pbits sig (processTable sig n t 0 maxSwitch) func
      (scaledXysup t maxSwitch)) fuel st

/-- `DistSymmetric::new(x0, ..)` + `sample` (`src/primitives.rs`). -/
def distSymmetricSample (w pbits sig n : ℕ) (x0 : ℚ) (func : UnivFn)
    (t : InitTableQ) (fuel : ℕ) (st : Stream' ℕ) : Option (ℚ × Stream' ℕ) :=
  let maxSwitch : ℕ := (1 <<< (w - pbits - 1)) - 1
  sampleLoop
    (distSymmetricStep w pbits sig (processTable sig n t x0 maxSwitch) func
      (scaledXysup t maxSwitch) x0) fuel st

/-- `DistCentralTailed::new` + `sample` (`src/primitives.rs`): the tail switch
comes from `compute_tail_switch(table, tail_area, true)`. -/
def distCentralTailedSample (w pbits sig n : ℕ) (func : UnivFn) (t : InitTableQ)
    (tailEnvelope : Envelope) (tailArea : ℚ) (fuel : ℕ) (st : Stream' ℕ) :
    Option (ℚ × Stream' ℕ) :=
  let tailSwitch := computeTailSwitch w pbits n t tailArea true
  sampleLoop
    (distCentralTailedStep w pbits sig (processTable sig n t 0 tailSwitch) func
      (scaledXysup t tailSwitch) tailEnvelope tailSwitch) fuel st

/-- `DistSymmetricTailed::new(x0, ..)` + `sample` (`src/primitives.rs`). -/
def distSymmetricTailedSample (w pbits sig n : ℕ) (x0 : ℚ) (func : UnivFn)
    (t : InitTableQ) (tailEnvelope : Envelope) (tailArea : ℚ) (fuel : ℕ)
    (st : Stream' ℕ) : Option (ℚ × Stream' ℕ) :=
  let tailSwitch := computeTailSwitch w pbits n t tailArea true
  sampleLoop
    (distSymmetricTailedStep w pbits sig (processTable sig n t x0 tailSwitch) func
      (scaledXysup t tailSwitch) x0 tailEnvelope tailSwitch) fuel st

/-! ### The Newton tabulator (`src/primitives/util.rs`)

`newton_tabulation` works on a node list `x` of length `n+1`.  Everything is
embedded over exact rationals; the float-specific `mean_area.is_nan()` escape
cannot fire in exact arithmetic (no value is NaN), so the failure exit is
driven by the iteration budget alone. -/

/-- A computed initialisation table, list form: `x` (`n+1` nodes), `yinf` and
`ysup` (`n` cells). -/
structure InitTableL where
  x : List ℚ
  yinf : List ℚ
  ysup : List ℚ
deriving DecidableEq

/-- Inputs of `newton_tabulation` other than the initial nodes and extrema:
the function, its derivative, the tolerance and the relaxation factor. -/
structure NewtonParams where
  f : ℚ → ℚ
  df : ℚ → ℚ
  tolerance : ℚ
  relaxation : ℚ

/-- Node values `y[i] = f(x[i])` (the boundary values are constants, but the
boundary nodes never move, so re-evaluating is the same). -/
def yAt (p : NewtonParams) (x : List ℚ) : ℕ → ℚ := fun i => p.f (x.getD i 0)

/-- Node derivatives: `dy_dx[i] = df(x[i])` for interior `i`, `0` at the
boundaries (`dy_dx[0] = dy_dx[n] = 0` in the source). -/
def dyAt (p : NewtonParams) (x : List ℚ) : ℕ → ℚ := fun i =>
  if i = 0 ∨ i = x.length - 1 then 0 else p.df (x.getD i 0)

/-- The inner `while let` of the supremum scan: advance the extrema cursor
while the cached extremum lies between `xl` and `xr`, raising the supremum
candidate (and zeroing its partial derivatives) whenever the extremum value
exceeds it.  Returns the updated `(ysup, dysup_dxl, dysup_dxr)` and the
remaining extrema. -/
def absorbSup (xl xr : ℚ) : List (ℚ × ℚ) → ℚ × ℚ × ℚ → (ℚ × ℚ × ℚ) × List (ℚ × ℚ)
  | [], acc => (acc, [])
  | (xe, ye) :: rest, acc =>
    if (decide (xe > xl)) != (decide (xe > xr)) then
      absorbSup xl xr rest (if ye > acc.1 then (ye, 0, 0) else acc)
    else (acc, (xe, ye) :: rest)

/-- The per-cell supremum scan of `newton_tabulation`: for cells `i`, `i+1`,
…, one `(ysup, dysup_dxl, dysup_dxr)` triple per cell, threading the extrema
cursor. `rem` is the number of cells left to process. -/
def supScanAux (x y dy : ℕ → ℚ) : ℕ → ℕ → List (ℚ × ℚ) → List (ℚ × ℚ × ℚ)
  | _, 0, _ => []
  | i, rem + 1, exts =>
    let base : ℚ × ℚ × ℚ :=
      if y i > y (i + 1) then (y i, dy i, 0) else (y (i + 1), 0, dy (i + 1))
    let out := absorbSup (x i) (x (i + 1)) exts base
    out.1 :: supScanAux x y dy (i + 1) rem out.2

/-- The supremum data of one Newton iteration on nodes `x`. -/
def supData (p : NewtonParams) (exts : List (ℚ × ℚ)) (x : List ℚ) : List (ℚ × ℚ × ℚ) :=
  supScanAux (fun i => x.getD i 0) (yAt p x) (dyAt p x) 0 (x.length - 1) exts

/-- Rectangle areas `ysup[i] * |x[i+1] - x[i]|`. -/
def areasOf (x : List ℚ) (sup : List (ℚ × ℚ × ℚ)) : List ℚ :=
  (List.range (x.length - 1)).map fun i =>
    (sup.getD i (0, 0, 0)).1 * |x.getD (i + 1) 0 - x.getD i 0|

/-- `max_area`: folded from `T::ZERO` exactly as in the source. -/
def maxAreaOf (areas : List ℚ) : ℚ := areas.foldl max 0

/-- `min_area`: the source folds `min` from `T::INFINITY`; for the (always
nonempty) area list this equals folding from the first element, which is how
it is written here to stay inside `ℚ`. -/
def minAreaOf (areas : List ℚ) : ℚ :=
  match areas with
  | [] => 0
  | a :: rest => rest.foldl min a

/-- `sum_area`. -/
def sumAreaOf (areas : List ℚ) : ℚ := areas.foldl (· + ·) 0

/-- `mean_area = sum_area / n`. -/
def meanAreaOf (n : ℕ) (areas : List ℚ) : ℚ := sumAreaOf areas / (n : ℚ)

/-- The convergence test of `newton_tabulation`:
`(max_area - min_area) < tolerance * mean_area` (strict). -/
def convergedQ (p : NewtonParams) (exts : List (ℚ × ℚ)) (x : List ℚ) : Prop :=
  let areas := areasOf x (supData p exts x)
  maxAreaOf areas - minAreaOf areas < p.tolerance * meanAreaOf (x.length - 1) areas

instance (p : NewtonParams) (exts : List (ℚ × ℚ)) (x : List ℚ) :
    Decidable (convergedQ p exts x) :=
  inferInstanceAs (Decidable
    (maxAreaOf (areasOf x (supData p exts x)) - minAreaOf (areasOf x (supData p exts x)) <
      p.tolerance * meanAreaOf (x.length - 1) (areasOf x (supData p exts x))))

/-- The inner `while let` of the infimum scan on the convergence exit path:
advance the extrema cursor while the cached extremum lies between `xl` and
`xr`, lowering the infimum whenever the extremum value is below it. -/
def absorbInf (xl xr : ℚ) : List (ℚ × ℚ) → ℚ → ℚ × List (ℚ × ℚ)
  | [], acc => (acc, [])
  | (xe, ye) :: rest, acc =>
    if (decide (xe > xl)) != (decide (xe > xr)) then
      absorbInf xl xr rest (if ye < acc then ye else acc)
    else (acc, (xe, ye) :: rest)

/-- The per-cell infimum scan of the convergence exit path:
`yinf[i] = min(y[i], y[i+1])`, lowered by interior extrema, threading a fresh
extrema cursor. -/
def infScanAux (x y : ℕ → ℚ) : ℕ → ℕ → List (ℚ × ℚ) → List ℚ
  | _, 0, _ => []
  | i, rem + 1, exts =>
    let base : ℚ := if y i > y (i + 1) then y (i + 1) else y i
    let out := absorbInf (x i) (x (i + 1)) exts base
    out.1 :: infScanAux x y (i + 1) rem out.2

/-- The table returned on the convergence exit: `ysup[i]` is inflated to
`max_area / |x[i+1] - x[i]|` and `yinf[i]` is computed by the infimum scan. -/
def newtonExitTable (p : NewtonParams) (exts : List (ℚ × ℚ)) (x : List ℚ) : InitTableL :=
  let n := x.length - 1
  let areas := areasOf x (supData p exts x)
  let maxArea := maxAreaOf areas
  { x := x
    ysup := (List.range n).map fun i => maxArea / |x.getD (i + 1) 0 - x.getD i 0|
    yinf := infScanAux (fun i => x.getD i 0) (yAt p x) 0 n exts }

/-- Forward (sub-diagonal elimination) pass of `solve_tma`: the carried state
is `(b'[i-1], rhs'[i-1], c[i-1])`; each row `(a[i], b[i], c[i], rhs[i])`
yields `(b'[i], rhs'[i])`. -/
def tmaFwdAux : ℚ × ℚ × ℚ → List (ℚ × ℚ × ℚ × ℚ) → List (ℚ × ℚ)
  | _, [] => []
  | (bp, rp, cp), (a, b, c, r) :: rows =>
    let pivot := a / bp
    let b' := b - pivot * cp
    let r' := r - pivot * rp
    (b', r') :: tmaFwdAux (b', r', c) rows

/-- Back-substitution pass of `solve_tma`, over the rows `(b'[i], c[i],
rhs'[i])` in reverse order, carrying `sol[i+1]`. -/
def tmaBackAux : ℚ → List (ℚ × ℚ × ℚ) → List ℚ
  | _, [] => []
  | solNext, (b, c, r) :: rest =>
    let s := (r - c * solNext) / b
    s :: tmaBackAux s rest

/-- `solve_tma` of `src/primitives/util.rs` (Thomas algorithm): sub-diagonal
`a`, diagonal `b`, super-diagonal `c`, right-hand side `rhs`; `a[0]` and
`c[m-1]` are never read. -/
def solveTma (a b c rhs : List ℚ) : List ℚ :=
  let m := a.length
  let fwdRows := (List.range (m - 1)).map fun j =>
    (a.getD (j + 1) 0, b.getD (j + 1) 0, c.getD (j + 1) 0, rhs.getD (j + 1) 0)
  let fwdOut := tmaFwdAux (b.getD 0 0, rhs.getD 0 0, c.getD 0 0) fwdRows
  let b' : ℕ → ℚ := fun i => if i = 0 then b.getD 0 0 else (fwdOut.getD (i - 1) (0, 0)).1
  let r' : ℕ → ℚ := fun i => if i = 0 then rhs.getD 0 0 else (fwdOut.getD (i - 1) (0, 0)).2
  let solLast := r' (m - 1) / b' (m - 1)
  let backRows := ((List.range (m - 1)).map fun i => (b' i, c.getD i 0, r' i)).reverse
  (solLast :: tmaBackAux solLast backRows).reverse

/-- The node-update loop of `newton_tabulation` (`for i in 1..n`): each
interior node is moved by `relaxation * dx[i-1]` and clamped between the
current values of its neighbours — the already-updated `x[i-1]` (`prev`) and
the not-yet-updated `x[i+1]`.  `xs` holds the old values `x[i], x[i+1], …`,
`ds` the remaining Newton updates. -/
def clampPass (relaxation : ℚ) : ℚ → List ℚ → List ℚ → List ℚ
  | _, xs, [] => xs
  | _, [], _ => []
  | _, [xn], _ => [xn]
  | prev, xi :: xip1 :: rest, d :: ds =>
    let mm : ℚ × ℚ := if xip1 > prev then (prev, xip1) else (xip1, prev)
    let xi' := max (min (xi + relaxation * d) mm.2) mm.1
    xi' :: clampPass relaxation xi' (xip1 :: rest) ds

/-- One full Newton update: residuals `minus_s`, the three Jacobian diagonals,
the tri-diagonal solve, and the clamped node update. -/
def newtonAdvance (p : NewtonParams) (exts : List (ℚ × ℚ)) (xl : List ℚ) : List ℚ :=
  let n := xl.length - 1
  let x : ℕ → ℚ := fun i => xl.getD i 0
  let sup := supData p exts xl
  let ysup : ℕ → ℚ := fun i => (sup.getD i (0, 0, 0)).1
  let dl : ℕ → ℚ := fun i => (sup.getD i (0, 0, 0)).2.1
  let dr : ℕ → ℚ := fun i => (sup.getD i (0, 0, 0)).2.2
  let minusS := (List.range (n - 1)).map fun i =>
    ysup i * (x (i + 1) - x i) - ysup (i + 1) * (x (i + 2) - x (i + 1))
  let dsDxl := (List.range (n - 1)).map fun i => ysup i - (x (i + 1) - x i) * dl i
  let dsDxc := (List.range (n - 1)).map fun i =>
    (x (i + 2) - x (i + 1)) * dl (i + 1) - (x (i + 1) - x i) * dr i - (ysup i + ysup (i + 1))
  let dsDxr := (List.range (n - 1)).map fun i => ysup (i + 1) + (x (i + 2) - x (i + 1)) * dr (i + 1)
  let dxs := solveTma dsDxl dsDxc dsDxr minusS
  match xl with
  | [] => []
  | x0 :: rest => x0 :: clampPass p.relaxation x0 rest dxs

/-- The main loop of `newton_tabulation`: test convergence, return the exit
table on success, fail when the iteration budget is exhausted, otherwise
update the nodes and loop.  (The source also fails when `mean_area` is NaN;
in exact arithmetic no NaN exists, so that escape cannot fire here.) -/
def newtonLoop (p : NewtonParams) (exts : List (ℚ × ℚ)) :
    ℕ → List ℚ → Except Unit InitTableL
  | fuel, x =>
    if convergedQ p exts x then .ok (newtonExitTable p exts x)
    else
      match fuel with
      | 0 => .error ()
      | fuel + 1 => newtonLoop p exts fuel (newtonAdvance p exts x)

/-- The extrema preprocessing of `newton_tabulation`: pair each extremum
abscissa with its function value and keep those strictly inside
`(x[0], x[n])`. -/
def extremaOf (p : NewtonParams) (xInit : List ℚ) (xExtrema : List ℚ) : List (ℚ × ℚ) :=
  (xExtrema.map fun xe => (xe, p.f xe)).filter fun q =>
    decide (q.1 > xInit.headD 0) && decide (q.1 < xInit.getLastD 0)

/-- `newton_tabulation` of `src/primitives/util.rs`. -/
def newtonTabulation (p : NewtonParams) (xInit : List ℚ) (xExtrema : List ℚ)
    (maxIter : ℕ) : Except Unit InitTableL :=
  newtonLoop p (extremaOf p xInit xExtrema) maxIter xInit

/-! ### Distribution constructors (`src/distributions/*.rs`)

Each constructor validates its parameters with guard clauses at entry, then
builds tables through `midpoint_prepartition` + `newton_tabulation` and wraps
any tabulation failure into the distribution's `TabulationFailure` variant.
The numeric pipeline after the guards is abstracted by a
`tab : Except Unit α` argument (its outcome depends only on the parameters,
not on any sampling-time input); the guards themselves are translated
literally. -/

/-- `NormalError` of `src/distributions/normal.rs`. -/
inductive NormalError where
  | tabulationFailure
  | badStdDev
deriving DecidableEq

/-- `Normal::new(mean, std_dev)`: `std_dev <= 0` is rejected up front. -/
def normalNew {α : Type} (mean stdDev : ℚ) (tab : Except Unit α) : Except NormalError α :=
  if stdDev ≤ 0 then .error .badStdDev
  else
    match tab with
    | .error _ => .error .tabulationFailure
    | .ok v => .ok v

/-- `CentralNormal::new(std_dev)`: same guard as `Normal::new`. -/
def centralNormalNew {α : Type} (stdDev : ℚ) (tab : Except Unit α) : Except NormalError α :=
  if stdDev ≤ 0 then .error .badStdDev
  else
    match tab with
    | .error _ => .error .tabulationFailure
    | .ok v => .ok v

/-- `CauchyError` of `src/distributions/cauchy.rs`. -/
inductive CauchyError where
  | tabulationFailure
  | badScale
deriving DecidableEq

/-- `Cauchy::new(location, scale)`: `scale <= 0` is rejected up front. -/
def cauchyNew {α : Type} (location scale : ℚ) (tab : Except Unit α) : Except CauchyError α :=
  if scale ≤ 0 then .error .badScale
  else
    match tab with
    | .error _ => .error .tabulationFailure
    | .ok v => .ok v

/-- `GumbelError` of `src/distributions/gumbel.rs`. -/
inductive GumbelError where
  | tabulationFailure
  | badScale
deriving DecidableEq

/-- `Gumbel::new(location, scale)`: `scale <= 0` is rejected up front. -/
def gumbelNew {α : Type} (location scale : ℚ) (tab : Except Unit α) : Except GumbelError α :=
  if scale ≤ 0 then .error .badScale
  else
    match tab with
    | .error _ => .error .tabulationFailure
    | .ok v => .ok v

/-- `GammaError` of `src/distributions/gamma.rs`. -/
inductive GammaError where
  | tabulationFailure
  | badShape
  | badScale
deriving DecidableEq

/-- `LargeShapeGamma::new(shape, scale)` (reached by `Gamma::new` for every
input): `shape < 1` is rejected with `BadShape`, then `scale <= 0` with
`BadScale`. -/
def gammaNew {α : Type} (shape scale : ℚ) (tab : Except Unit α) : Except GammaError α :=
  if shape < 1 then .error .badShape
  else if scale ≤ 0 then .error .badScale
  else
    match tab with
    | .error _ => .error .tabulationFailure
    | .ok v => .ok v

/-- `ChiSquaredError` of `src/distributions/chi_squared.rs`. -/
inductive ChiSquaredError where
  | tabulationFailure
  | badDof
deriving DecidableEq

/-- `ChiSquared::new(k)`: `k < 2` is rejected with `BadDof`. -/
def chiSquaredNew {α : Type} (k : ℚ) (tab : Except Unit α) : Except ChiSquaredError α :=
  if k < 2 then .error .badDof
  else
    match tab with
    | .error _ => .error .tabulationFailure
    | .ok v => .ok v

/-! ### Shared helper lemmas -/

theorem mask_and_eq_mod (x k : ℕ) : x &&& (1 <<< k) - 1 = x % 2 ^ k := by
  rw [Nat.one_shiftLeft]
  exact Nat.and_pow_two_sub_one_eq_mod x k

theorem xor_two_pow_of_lt {k lo : ℕ} (h : lo < 2 ^ k) : 2 ^ k ^^^ lo = 2 ^ k + lo := by
  induction k generalizing lo with
  | zero =>
    interval_cases lo
    rfl
  | succ k ih =>
    have hdiv : lo / 2 < 2 ^ k := by
      rw [Nat.div_lt_iff_lt_mul (by norm_num)]
      calc lo < 2 ^ (k + 1) := h
        _ = 2 ^ k * 2 := by ring
    have hz := Nat.div_add_mod (2 ^ (k + 1) ^^^ lo) 2
    have h1 : (2 ^ (k + 1) ^^^ lo) / 2 = 2 ^ k + lo / 2 := by
      rw [Nat.xor_div_two]
      have : 2 ^ (k + 1) / 2 = 2 ^ k := by
        rw [pow_succ]
        exact Nat.mul_div_cancel _ (by norm_num)
      rw [this, ih hdiv]
    have h2 : (2 ^ (k + 1) ^^^ lo) % 2 = lo % 2 := by
      rw [Nat.xor_mod_two_eq]
      have : (2 ^ (k + 1) + lo) % 2 = lo % 2 := by
        rw [pow_succ, mul_comm]
        exact Nat.mul_add_mod 2 (2 ^ k) lo
      exact this
    have hlo := Nat.div_add_mod lo 2
    omega

theorem xor_sign_mask_flip {w b : ℕ} (hw : 0 < w) (hb : b < 2 ^ w) :
    b ^^^ 2 ^ (w - 1) = if b < 2 ^ (w - 1) then b + 2 ^ (w - 1) else b - 2 ^ (w - 1) := by
  by_cases hlt : b < 2 ^ (w - 1)
  · rw [if_pos hlt, Nat.xor_comm, xor_two_pow_of_lt hlt]
    omega
  · rw [if_neg hlt]
    have hlo : b - 2 ^ (w - 1) < 2 ^ (w - 1) := by
      have : 2 ^ w = 2 ^ (w - 1) * 2 := by
        rw [← pow_succ]
        congr 1
        omega
      omega
    have key : 2 ^ (w - 1) ^^^ (b - 2 ^ (w - 1)) = b := by
      rw [xor_two_pow_of_lt hlo]
      omega
    calc b ^^^ 2 ^ (w - 1) = (2 ^ (w - 1) ^^^ (b - 2 ^ (w - 1))) ^^^ 2 ^ (w - 1) := by
          rw [key]
      _ = b - 2 ^ (w - 1) := by
          rw [Nat.xor_comm (2 ^ (w - 1)) (b - 2 ^ (w - 1)), Nat.xor_assoc,
            Nat.xor_self, Nat.xor_zero]

theorem arithShift_and_iMask {w pbits r : ℕ} (hp : pbits + 2 ≤ w) (hr : r < 2 ^ w) :
    arithmeticRightShift w r (w - pbits - 1) &&& (1 <<< pbits) - 1 =
      r / 2 ^ (w - pbits - 1) % 2 ^ pbits := by
  rw [mask_and_eq_mod]
  unfold arithmeticRightShift
  by_cases hlt : r < 2 ^ (w - 1)
  · rw [if_pos hlt, Nat.shiftRight_eq_div_pow]
  · rw [if_neg hlt, Nat.shiftRight_eq_div_pow]
    have hkv : w - (w - pbits - 1) = pbits + 1 := by omega
    rw [hkv]
    have hfac : 2 ^ w - 2 ^ (pbits + 1) = 2 ^ pbits * (2 ^ (w - pbits) - 2) := by
      have h1 : 2 ^ w = 2 ^ pbits * 2 ^ (w - pbits) := by
        rw [← pow_add]
        congr 1
        omega
      have h2 : (2 : ℕ) ^ (pbits + 1) = 2 ^ pbits * 2 := by rw [pow_succ]
      rw [h1, h2, ← Nat.mul_sub]
    rw [hfac, Nat.add_mul_mod_self_left]

theorem arithShift_and_sMask {w pbits r : ℕ} (hp : pbits + 2 ≤ w) (hr : r < 2 ^ w) :
    arithmeticRightShift w r (w - pbits - 1) &&& 1 <<< (w - 1) =
      if r < 2 ^ (w - 1) then 0 else 2 ^ (w - 1) := by
  rw [Nat.one_shiftLeft, Nat.and_two_pow]
  unfold arithmeticRightShift
  have hple : 2 ^ (pbits + 1) ≤ 2 ^ (w - 1) := Nat.pow_le_pow_right (by norm_num) (by omega)
  by_cases hlt : r < 2 ^ (w - 1)
  · rw [if_pos hlt, if_pos hlt, Nat.shiftRight_eq_div_pow]
    have hbound : r / 2 ^ (w - pbits - 1) < 2 ^ (pbits + 1) := by
      rw [Nat.div_lt_iff_lt_mul (Nat.pos_pow_of_pos _ (by norm_num)), ← pow_add]
      have : pbits + 1 + (w - pbits - 1) = w := by omega
      rw [this]
      exact hr
    have htb : (r / 2 ^ (w - pbits - 1)).testBit (w - 1) = false := by
      apply Nat.testBit_lt_two_pow
      exact lt_of_lt_of_le hbound hple
    rw [htb]
    simp
  · rw [if_neg hlt, if_neg hlt, Nat.shiftRight_eq_div_pow]
    have hkv : w - (w - pbits - 1) = pbits + 1 := by omega
    rw [hkv]
    have hw2 : 2 ^ w = 2 ^ (w - 1) * 2 := by
      rw [← pow_succ]
      congr 1
      omega
    have hbound : r / 2 ^ (w - pbits - 1) < 2 ^ (pbits + 1) := by
      rw [Nat.div_lt_iff_lt_mul (Nat.pos_pow_of_pos _ (by norm_num)), ← pow_add]
      have : pbits + 1 + (w - pbits - 1) = w := by omega
      rw [this]
      exact hr
    generalize hq : r / 2 ^ (w - pbits - 1) = q
    rw [hq] at hbound
    have htb : (q + (2 ^ w - 2 ^ (pbits + 1))).testBit (w - 1) = true := by
      rw [Nat.testBit_to_div_mod]
      have h1 : (q + (2 ^ w - 2 ^ (pbits + 1))) / 2 ^ (w - 1) = 1 := by
        apply Nat.div_eq_of_lt_le
        · omega
        · omega
      rw [h1]
      norm_num
    rw [htb]
    simp

theorem shiftRight_lt_sig {w sig r : ℕ} (hs : sig + 1 ≤ w) (hr : r < 2 ^ w) :
    r >>> (w - sig - 1) < 2 ^ (sig + 1) := by
  rw [Nat.shiftRight_eq_div_pow]
  rw [Nat.div_lt_iff_lt_mul (Nat.pos_pow_of_pos _ (by norm_num)), ← pow_add]
  have : sig + 1 + (w - sig - 1) = w := by omega
  rw [this]
  exact hr

/-! ### Claim theorems -/

/-- C9.  `Float::gen` returns exactly `(r >> (BITS - SIGNIFICAND_BITS - 1)) *
2^-(SIGNIFICAND_BITS+1)`, the shifted word is an integer below
`2^(SIGNIFICAND_BITS+1)` (hence representable and all steps exact), and the
result lies in `[0, 1)`. -/
theorem claim9_uniform_float (w sig r : ℕ) (hs : sig + 1 ≤ w) (hr : r < 2 ^ w) :
    floatGen w sig r = ((r / 2 ^ (w - sig - 1) : ℕ) : ℚ) * (1 / 2 ^ (sig + 1)) ∧
      (∃ mfrac : ℕ, mfrac < 2 ^ (sig + 1) ∧ floatGen w sig r = (mfrac : ℚ) / 2 ^ (sig + 1)) ∧
      0 ≤ floatGen w sig r ∧ floatGen w sig r < 1 := by
  have hlt := shiftRight_lt_sig hs hr
  have hval : floatGen w sig r = ((r >>> (w - sig - 1) : ℕ) : ℚ) / 2 ^ (sig + 1) := by
    unfold floatGen
    ring
  refine ⟨?_, ⟨r >>> (w - sig - 1), hlt, hval⟩, ?_, ?_⟩
  · rw [hval, Nat.shiftRight_eq_div_pow]
    ring
  · rw [hval]
    positivity
  · rw [hval, div_lt_one (by positivity)]
    calc ((r >>> (w - sig - 1) : ℕ) : ℚ) < ((2 ^ (sig + 1) : ℕ) : ℚ) := by
          exact_mod_cast hlt
      _ = 2 ^ (sig + 1) := by push_cast; ring

/-- C9 witness: `w = 32`, `sig = 23`, `r = 0xdeadbeef`. -/
theorem claim9_witness :
    23 + 1 ≤ 32 ∧ 3735928559 < 2 ^ 32 ∧
      (floatGen 32 23 3735928559 = ((3735928559 / 2 ^ (32 - 23 - 1) : ℕ) : ℚ) * (1 / 2 ^ (23 + 1)) ∧
        (∃ mfrac : ℕ, mfrac < 2 ^ (23 + 1) ∧
          floatGen 32 23 3735928559 = (mfrac : ℚ) / 2 ^ (23 + 1)) ∧
        0 ≤ floatGen 32 23 3735928559 ∧ floatGen 32 23 3735928559 < 1) :=
  ⟨by norm_num, by norm_num,
    claim9_uniform_float 32 23 3735928559 (by norm_num) (by norm_num)⟩

/-- C5 (amended).  Every distribution constructor validates its parameters
eagerly at entry and returns its bad-parameter variant exactly when its guard
fires — `scale <= 0` for Cauchy and Gumbel, `std_dev <= 0` for `Normal` and
`CentralNormal`, `shape < 1` then `scale <= 0` for Gamma, `k < 2` for
`ChiSquared` — independently of the tabulation outcome; once the guards pass,
the only remaining failure is `TabulationFailure` and a success passes the
built sampler through, so no parameter error is ever produced later. -/
theorem claim5_constructor_validation (α : Type) (location scale mean stdDev shape k : ℚ)
    (tab : Except Unit α) :
    (cauchyNew location scale tab = .error .badScale ↔ scale ≤ 0) ∧
    (gumbelNew location scale tab = .error .badScale ↔ scale ≤ 0) ∧
    (normalNew mean stdDev tab = .error .badStdDev ↔ stdDev ≤ 0) ∧
    (centralNormalNew stdDev tab = .error .badStdDev ↔ stdDev ≤ 0) ∧
    (gammaNew shape scale tab = .error .badShape ↔ shape < 1) ∧
    (gammaNew shape scale tab = .error .badScale ↔ ¬shape < 1 ∧ scale ≤ 0) ∧
    (chiSquaredNew k tab = .error .badDof ↔ k < 2) ∧
    (¬scale ≤ 0 → ∀ v : α,
      (cauchyNew location scale tab = .ok v ↔ tab = .ok v) ∧
      (cauchyNew location scale tab = .error .tabulationFailure ↔ tab = .error ())) ∧
    (¬stdDev ≤ 0 → ∀ v : α,
      (normalNew mean stdDev tab = .ok v ↔ tab = .ok v) ∧
      (normalNew mean stdDev tab = .error .tabulationFailure ↔ tab = .error ())) ∧
    (¬shape < 1 → ¬scale ≤ 0 → ∀ v : α,
      (gammaNew shape scale tab = .ok v ↔ tab = .ok v) ∧
      (gammaNew shape scale tab = .error .tabulationFailure ↔ tab = .error ())) ∧
    (¬k < 2 → ∀ v : α,
      (chiSquaredNew k tab = .ok v ↔ tab = .ok v) ∧
      (chiSquaredNew k tab = .error .tabulationFailure ↔ tab = .error ())) := by
  unfold cauchyNew gumbelNew normalNew centralNormalNew gammaNew chiSquaredNew
  cases tab with
  | ok v => split_ifs <;> simp_all
  | error e => cases e; split_ifs <;> simp_all

/-- C5 counterexample.  The claim says the parameter guards are the positivity
constraints `shape > 0` (Gamma) and `degrees of freedom > 0` (χ²): it fails on
the code, which rejects `shape = 1/2 > 0` with `BadShape` and `k = 1 > 0` with
`BadDof` even though the tabulation succeeds. -/
theorem claim5_counterexample :
    (0 : ℚ) < 1 ∧ @chiSquaredNew Unit 1 (.ok ()) = .error .badDof ∧
      (0 : ℚ) < 1 / 2 ∧ @gammaNew Unit (1 / 2) 1 (.ok ()) = .error .badShape := by
  refine ⟨by norm_num, ?_, by norm_num, ?_⟩
  · unfold chiSquaredNew
    rw [if_pos (by norm_num)]
  · unfold gammaNew
    rw [if_pos (by norm_num)]

theorem comps_add_sign_mask (e m c : ℕ) (hc : c < 2 ^ (e + m)) :
    fpSign e m c = 0 ∧ fpSign e m (c + 2 ^ (e + m)) = 1 ∧
      fpExp e m (c + 2 ^ (e + m)) = fpExp e m c ∧
      fpMant m (c + 2 ^ (e + m)) = fpMant m c := by
  refine ⟨?_, ?_, ?_, ?_⟩
  · exact Nat.div_eq_of_lt hc
  · unfold fpSign
    rw [Nat.add_div_right _ (Nat.pos_pow_of_pos _ (by norm_num)), Nat.div_eq_of_lt hc]
  · unfold fpExp
    have hsplit : (2 : ℕ) ^ (e + m) = 2 ^ e * 2 ^ m := pow_add 2 e m
    rw [hsplit, Nat.add_mul_div_right _ _ (Nat.pos_pow_of_pos _ (by norm_num)),
      Nat.add_mod_right]
  · unfold fpMant
    have hsplit : (2 : ℕ) ^ (e + m) = 2 ^ e * 2 ^ m := pow_add 2 e m
    rw [hsplit, Nat.add_mul_mod_self_right]

theorem flip_sign_mask_comps (e m b : ℕ) (hb : b < 2 ^ (1 + e + m)) :
    fpSign e m b ≤ 1 ∧ fpSign e m (b ^^^ 2 ^ (e + m)) = 1 - fpSign e m b ∧
      fpExp e m (b ^^^ 2 ^ (e + m)) = fpExp e m b ∧
      fpMant m (b ^^^ 2 ^ (e + m)) = fpMant m b := by
  have hw : 1 + e + m - 1 = e + m := by omega
  have hflip := @xor_sign_mask_flip (1 + e + m) b (by omega) hb
  rw [hw] at hflip
  have hsle : fpSign e m b ≤ 1 := by
    unfold fpSign
    have h2 : 2 ^ (1 + e + m) = 2 * 2 ^ (e + m) := by
      rw [← pow_succ']
      congr 1
      omega
    have hdiv : b / 2 ^ (e + m) < 2 := Nat.div_lt_of_lt_mul (by omega)
    omega
  by_cases hlt : b < 2 ^ (e + m)
  · rw [if_pos hlt] at hflip
    obtain ⟨h0, h1, h2, h3⟩ := comps_add_sign_mask e m b hlt
    rw [hflip]
    exact ⟨hsle, by rw [h1, h0], h2, h3⟩
  · rw [if_neg hlt] at hflip
    have hc : b - 2 ^ (e + m) < 2 ^ (e + m) := by
      have h2 : 2 ^ (1 + e + m) = 2 * 2 ^ (e + m) := by
        rw [← pow_succ']
        congr 1
        omega
      omega
    obtain ⟨h0, h1, h2, h3⟩ := comps_add_sign_mask e m (b - 2 ^ (e + m)) hc
    have hbeq : b - 2 ^ (e + m) + 2 ^ (e + m) = b := by omega
    rw [hbeq] at h1 h2 h3
    rw [hflip]
    exact ⟨hsle, by rw [h0, h1], h2.symm, h3.symm⟩

/-- C8.  The sign fold of the symmetric samplers, at the bit-pattern level
(`Float::bitxor(c, u) = from_bits(to_bits(c) ^ u)` of `src/num.rs`): for every
`(1+e+m)`-bit pattern `b`, XOR with `0` leaves the decoded value unchanged,
and XOR with the sign mask `2^(e+m)` (the top bit) negates every non-NaN
decoded value. -/
theorem claim8_sign_xor (e m b : ℕ) (hb : b < 2 ^ (1 + e + m)) :
    interp e m (b ^^^ 0) = interp e m b ∧
      (interp e m b ≠ .nan → interp e m (b ^^^ 2 ^ (e + m)) = (interp e m b).neg) := by
  constructor
  · rw [Nat.xor_zero]
  · intro hnan
    obtain ⟨hsle, hsf, hef, hmf⟩ := flip_sign_mask_comps e m b hb
    simp only [interp] at hnan ⊢
    rw [hsf, hef, hmf]
    rcases Nat.le_one_iff_eq_zero_or_eq_one.mp hsle with hs | hs <;>
      rw [hs] at hnan ⊢ <;>
      split_ifs at hnan ⊢ with h1 h2 h3 <;>
      simp_all [Fp.neg] <;>
      ring

/-- C8 witness: the `f32` layout (`e = 8`, `m = 23`) at the pattern of `1.5`
(`0x3fc00000`), whose decoded value is `3/2`; the XOR with the sign mask
decodes to `-3/2`. -/
theorem claim8_witness :
    1069547520 < 2 ^ (1 + 8 + 23) ∧
      interp 8 23 (1069547520 ^^^ 0) = interp 8 23 1069547520 ∧
      (interp 8 23 1069547520 ≠ .nan →
        interp 8 23 (1069547520 ^^^ 2 ^ (8 + 23)) = (interp 8 23 1069547520).neg) :=
  ⟨by norm_num, (claim8_sign_xor 8 23 1069547520 (by norm_num)).1,
    (claim8_sign_xor 8 23 1069547520 (by norm_num)).2⟩

/-- C2.  For every cell, `process_table` computes
`w = (yinf/ysup) * tail_switch` and `bit_loss = SIGNIFICAND_BITS - log2 w`:
for positive `w` the branch test `bit_loss ≤ 1` is exactly the model's
`2^(sig-1) ≤ w`; on the fast branch the cell is
`(alpha, beta, wedge_switch) = ((x[i+1]-x[i])/w, x[i]-x0, round w)`, otherwise
the degenerate `(0, x[i]-x0, 0)`; and every cell with
`yinf/ysup < 2^-(sig-1)` is degenerate (for any tail switch that fits in a
word, `tail_switch ≤ 2^(2(sig-1))`). -/
theorem claim2_process_table_cell (sig ts : ℕ) (xl xr yinf ysup x0 : ℚ)
    (hsig : 1 ≤ sig) :
    (0 < yinf / ysup * (ts : ℚ) →
      ((sig : ℝ) - Real.logb 2 ((yinf / ysup * (ts : ℚ) : ℚ) : ℝ) ≤ 1 ↔
        (2 : ℚ) ^ (sig - 1) ≤ yinf / ysup * (ts : ℚ))) ∧
    ((2 : ℚ) ^ (sig - 1) ≤ yinf / ysup * (ts : ℚ) →
      processCell sig ts xl xr yinf ysup x0 =
        { alpha := (xr - xl) / (yinf / ysup * (ts : ℚ)), beta := xl - x0,
          wedgeSwitch := roundQ (yinf / ysup * (ts : ℚ)) }) ∧
    (¬(2 : ℚ) ^ (sig - 1) ≤ yinf / ysup * (ts : ℚ) →
      processCell sig ts xl xr yinf ysup x0 =
        { alpha := 0, beta := xl - x0, wedgeSwitch := 0 }) ∧
    (yinf / ysup < 1 / 2 ^ (sig - 1) → (ts : ℚ) ≤ 2 ^ (2 * (sig - 1)) →
      processCell sig ts xl xr yinf ysup x0 =
        { alpha := 0, beta := xl - x0, wedgeSwitch := 0 }) := by
  refine ⟨?_, ?_, ?_, ?_⟩
  · intro hw
    have hwR : (0 : ℝ) < ((yinf / ysup * (ts : ℚ) : ℚ) : ℝ) := by exact_mod_cast hw
    have hstep : (sig : ℝ) - Real.logb 2 ((yinf / ysup * (ts : ℚ) : ℚ) : ℝ) ≤ 1 ↔
        ((sig : ℝ) - 1 ≤ Real.logb 2 ((yinf / ysup * (ts : ℚ) : ℚ) : ℝ)) := by
      constructor <;> intro h <;> linarith
    rw [hstep, Real.le_logb_iff_rpow_le (by norm_num) hwR]
    have hcast : (sig : ℝ) - 1 = ((sig - 1 : ℕ) : ℝ) := by
      rw [Nat.cast_sub hsig]
      norm_num
    rw [hcast, Real.rpow_natCast]
    exact_mod_cast Iff.rfl
  · intro h
    unfold processCell
    rw [if_pos h]
  · intro h
    unfold processCell
    rw [if_neg h]
  · intro hratio hts
    unfold processCell
    rw [if_neg ?_]
    intro habs
    have htsnn : (0 : ℚ) ≤ (ts : ℚ) := by positivity
    have hppos : (0 : ℚ) < 2 ^ (sig - 1) := by positivity
    by_cases hr : yinf / ysup ≤ 0
    · have : yinf / ysup * (ts : ℚ) ≤ 0 := mul_nonpos_of_nonpos_of_nonneg hr htsnn
      linarith
    · push_neg at hr
      have h1 : yinf / ysup * (ts : ℚ) < 1 / 2 ^ (sig - 1) * (ts : ℚ) := by
        rcases eq_or_lt_of_le htsnn with hts0 | hts0
        · exfalso
          rw [← hts0] at habs
          simp at habs
          linarith
        · exact mul_lt_mul_of_pos_right hratio hts0
      have h2 : 1 / 2 ^ (sig - 1) * (ts : ℚ) ≤ 1 / 2 ^ (sig - 1) * 2 ^ (2 * (sig - 1)) := by
        apply mul_le_mul_of_nonneg_left hts
        positivity
      have h3 : 1 / 2 ^ (sig - 1) * 2 ^ (2 * (sig - 1)) = (2 : ℚ) ^ (sig - 1) := by
        rw [two_mul, pow_add]
        field_simp
      linarith

/-- C2 witness: `sig = 23`, `tail_switch = 2^24`, `yinf/ysup = 1/2`: the fast
branch is taken with `w = 2^23`. -/
theorem claim2_witness :
    1 ≤ 23 ∧
      ((2 : ℚ) ^ (23 - 1) ≤ 1 / 2 * ((2 ^ 24 : ℕ) : ℚ) →
        processCell 23 (2 ^ 24) 0 1 1 2 0 =
          { alpha := (1 - 0) / (1 / 2 * ((2 ^ 24 : ℕ) : ℚ)), beta := 0 - 0,
            wedgeSwitch := roundQ (1 / 2 * ((2 ^ 24 : ℕ) : ℚ)) }) := by
  exact ⟨by norm_num, (claim2_process_table_cell 23 (2 ^ 24) 0 1 1 2 0 (by norm_num)).2.1⟩

theorem roundQ_le_of_le {w : ℚ} {ts : ℕ} (h : w ≤ (ts : ℚ)) : roundQ w ≤ ts := by
  unfold roundQ
  have hlt : w + 1 / 2 < (((ts : ℤ) + 1 : ℤ) : ℚ) := by
    push_cast
    linarith
  have hfl : ⌊w + 1 / 2⌋ < (ts : ℤ) + 1 := Int.floor_lt.mpr hlt
  omega

theorem processTable_wedgeSwitch_le (sig n : ℕ) (t : InitTableQ) (x0 : ℚ) (ts : ℕ)
    (hinv : ∀ i, i < n → 0 ≤ t.yinf i ∧ t.yinf i ≤ t.ysup i) :
    ∀ i, (processTable sig n t x0 ts i).wedgeSwitch ≤ ts := by
  intro i
  unfold processTable
  by_cases hi : i < n
  · rw [if_pos hi]
    obtain ⟨h0, h1⟩ := hinv i hi
    unfold processCell
    by_cases hcond : (2 : ℚ) ^ (sig - 1) ≤ t.yinf i / t.ysup i * (ts : ℚ)
    · rw [if_pos hcond]
      have hyspos : 0 < t.ysup i := by
        rcases lt_or_eq_of_le (le_trans h0 h1) with h | h
        · exact h
        · exfalso
          have hy0 : t.yinf i = 0 := le_antisymm (h ▸ h1) h0
          rw [hy0, ← h] at hcond
          simp at hcond
          have : (0 : ℚ) < 2 ^ (sig - 1) := by positivity
          linarith
      have hratio : t.yinf i / t.ysup i ≤ 1 := by
        rw [div_le_one hyspos]
        exact h1
      have hwle : t.yinf i / t.ysup i * (ts : ℚ) ≤ (ts : ℚ) := by
        have htsnn : (0 : ℚ) ≤ (ts : ℚ) := by positivity
        nlinarith
      exact roundQ_le_of_le hwle
    · rw [if_neg hcond]
      exact Nat.zero_le ts
  · rw [if_neg hi]
    exact Nat.zero_le ts

/-- C10.  For every initialisation table with `0 ≤ yinf[i] ≤ ysup[i]`, every
non-zero `wedge_switch` produced by `process_table` is at most the
`tail_switch` it was built with (in particular the one produced by
`compute_tail_switch`); consequently, in each tailed sampler a fraction `u`
that selects the tail region (`u > tail_switch`) can never take the
rectangular fast path. -/
theorem claim10_wedge_switch_bounded (w pbits sig n : ℕ) (t : InitTableQ) (x0 : ℚ)
    (ts : ℕ) (hinv : ∀ i, i < n → 0 ≤ t.yinf i ∧ t.yinf i ≤ t.ysup i) :
    (∀ i, (processTable sig n t x0 ts i).wedgeSwitch ≠ 0 →
      (processTable sig n t x0 ts i).wedgeSwitch ≤ ts) ∧
    (∀ (func : UnivFn) (sxy : ℚ) (tailEnvelope : Envelope) (st : Stream' ℕ)
        (v : ℚ) (rest : Stream' ℕ),
      ts < st 0 &&& (1 <<< (w - pbits)) - 1 →
        distAnyTailedStep w pbits sig (processTable sig n t x0 ts) func sxy
          tailEnvelope ts st ≠ .fast v rest) ∧
    (∀ (func : UnivFn) (sxy : ℚ) (tailEnvelope : Envelope) (st : Stream' ℕ)
        (v : ℚ) (rest : Stream' ℕ),
      ts < st 0 &&& (1 <<< (w - pbits - 1)) - 1 →
        distCentralTailedStep w pbits sig (processTable sig n t x0 ts) func sxy
          tailEnvelope ts st ≠ .fast v rest) ∧
    (∀ (func : UnivFn) (sxy : ℚ) (x0' : ℚ) (tailEnvelope : Envelope) (st : Stream' ℕ)
        (v : ℚ) (rest : Stream' ℕ),
      ts < st 0 &&& (1 <<< (w - pbits - 1)) - 1 →
        distSymmetricTailedStep w pbits sig (processTable sig n t x0 ts) func sxy
          x0' tailEnvelope ts st ≠ .fast v rest) := by
  have hle := processTable_wedgeSwitch_le sig n t x0 ts hinv
  refine ⟨fun i _ => hle i, ?_, ?_, ?_⟩
  · intro func sxy tailEnvelope st v rest hgt
    unfold distAnyTailedStep
    rw [if_neg (by
      intro habs
      exact absurd (le_trans habs (hle _)) (not_le.mpr hgt))]
    rw [if_pos hgt]
    rcases tailEnvelope (Stream'.drop 1 st) with ⟨xo, rest'⟩
    cases xo <;> simp
  · intro func sxy tailEnvelope st v rest hgt
    unfold distCentralTailedStep
    rw [if_neg (by
      intro habs
      exact absurd (le_trans habs (hle _)) (not_le.mpr hgt))]
    rw [if_pos hgt]
    rcases tailEnvelope (Stream'.drop 1 st) with ⟨xo, rest'⟩
    cases xo <;> simp
  · intro func sxy x0' tailEnvelope st v rest hgt
    unfold distSymmetricTailedStep
    rw [if_neg (by
      intro habs
      exact absurd (le_trans habs (hle _)) (not_le.mpr hgt))]
    rw [if_pos hgt]
    rcases tailEnvelope (Stream'.drop 1 st) with ⟨xo, rest'⟩
    cases xo <;> simp

/-- C10 witness: a two-cell table with `yinf = [1, 0]`, `ysup = [1, 2]`,
`tail_switch = 100`: the wedge switches are bounded by the tail switch, and
for the stream constantly `255` (so `u = 255 > 100` under `w = 16`,
`pbits = 4`) the fast path is impossible. -/
theorem claim10_witness :
    (∀ i, i < 2 →
      0 ≤ (⟨fun i => (i : ℚ), fun i => if i = 0 then 1 else 0,
        fun i => if i = 0 then 1 else 2⟩ : InitTableQ).yinf i ∧
      (⟨fun i => (i : ℚ), fun i => if i = 0 then 1 else 0,
        fun i => if i = 0 then 1 else 2⟩ : InitTableQ).yinf i ≤
      (⟨fun i => (i : ℚ), fun i => if i = 0 then 1 else 0,
        fun i => if i = 0 then 1 else 2⟩ : InitTableQ).ysup i) ∧
    (100 < (fun _ : ℕ => 255) 0 &&& (1 <<< (16 - 4)) - 1 →
      distAnyTailedStep 16 4 10
        (processTable 10 2 ⟨fun i => (i : ℚ), fun i => if i = 0 then 1 else 0,
          fun i => if i = 0 then 1 else 2⟩ 0 100)
        (UnivFn.ofEval fun _ => 0) 0 (fun s => (none, s)) 100 (fun _ => 255) ≠
        .fast 0 (fun _ => 255)) := by
  have hinv : ∀ i, i < 2 →
      0 ≤ ((⟨fun i => (i : ℚ), fun i => if i = 0 then 1 else 0,
        fun i => if i = 0 then 1 else 2⟩ : InitTableQ).yinf i) ∧
      ((⟨fun i => (i : ℚ), fun i => if i = 0 then 1 else 0,
        fun i => if i = 0 then 1 else 2⟩ : InitTableQ).yinf i) ≤
      ((⟨fun i => (i : ℚ), fun i => if i = 0 then 1 else 0,
        fun i => if i = 0 then 1 else 2⟩ : InitTableQ).ysup i) := by
    intro i _
    by_cases h : i = 0 <;> simp [h]
  exact ⟨hinv,
    (claim10_wedge_switch_bounded 16 4 10 2 _ 0 100 hinv).2.1
      (UnivFn.ofEval fun _ => 0) 0 (fun s => (none, s)) (fun _ => 255) 0 (fun _ => 255)⟩

/-- C1.  For every sampler variant, one iteration draws exactly one uniform
word `r = st 0` and decomposes it as: fraction `u` = the low
`w - P::BITS - sign_bits` bits of `r`; table index `i` = the `P::BITS` bits
above them (skipping the one leading sign bit for the central/symmetric
variants, whose sign `s` is the top bit of `r`); and the iteration returns the
rectangular fast-path candidate `u * alpha[i] + beta[i]` (with sign fold and
`x0` translation where applicable), having consumed only that one word, if and
only if `u ≤ wedge_switch[i]`. -/
theorem claim1_bit_decomposition_fast_path (w pbits sig : ℕ) (data : ℕ → DatumQ)
    (func : UnivFn) (sxy : ℚ) (tailEnvelope : Envelope) (ts : ℕ) (x0 : ℚ)
    (st : Stream' ℕ) (hp : pbits + 2 ≤ w) (hr : st 0 < 2 ^ w) :
    ((st 0 % 2 ^ (w - pbits) ≤ (data (st 0 / 2 ^ (w - pbits))).wedgeSwitch →
      distAnyStep w pbits sig data func sxy st =
        .fast ((st 0 % 2 ^ (w - pbits) : ℕ) * (data (st 0 / 2 ^ (w - pbits))).alpha +
          (data (st 0 / 2 ^ (w - pbits))).beta) (st.drop 1)) ∧
     (¬st 0 % 2 ^ (w - pbits) ≤ (data (st 0 / 2 ^ (w - pbits))).wedgeSwitch →
      ∀ v rest, distAnyStep w pbits sig data func sxy st ≠ .fast v rest)) ∧
    ((st 0 % 2 ^ (w - pbits) ≤ (data (st 0 / 2 ^ (w - pbits))).wedgeSwitch →
      distAnyTailedStep w pbits sig data func sxy tailEnvelope ts st =
        .fast ((st 0 % 2 ^ (w - pbits) : ℕ) * (data (st 0 / 2 ^ (w - pbits))).alpha +
          (data (st 0 / 2 ^ (w - pbits))).beta) (st.drop 1)) ∧
     (¬st 0 % 2 ^ (w - pbits) ≤ (data (st 0 / 2 ^ (w - pbits))).wedgeSwitch →
      ∀ v rest, distAnyTailedStep w pbits sig data func sxy tailEnvelope ts st ≠
        .fast v rest)) ∧
    ((st 0 % 2 ^ (w - pbits - 1) ≤
        (data (st 0 / 2 ^ (w - pbits - 1) % 2 ^ pbits)).wedgeSwitch →
      distCentralStep w pbits sig data func sxy st =
        .fast (applySign (if st 0 < 2 ^ (w - 1) then 0 else 2 ^ (w - 1))
          ((st 0 % 2 ^ (w - pbits - 1) : ℕ) *
            (data (st 0 / 2 ^ (w - pbits - 1) % 2 ^ pbits)).alpha +
            (data (st 0 / 2 ^ (w - pbits - 1) % 2 ^ pbits)).beta)) (st.drop 1)) ∧
     (¬st 0 % 2 ^ (w - pbits - 1) ≤
        (data (st 0 / 2 ^ (w - pbits - 1) % 2 ^ pbits)).wedgeSwitch →
      ∀ v rest, distCentralStep w pbits sig data func sxy st ≠ .fast v rest)) ∧
    ((st 0 % 2 ^ (w - pbits - 1) ≤
        (data (st 0 / 2 ^ (w - pbits - 1) % 2 ^ pbits)).wedgeSwitch →
      distCentralTailedStep w pbits sig data func sxy tailEnvelope ts st =
        .fast (applySign (if st 0 < 2 ^ (w - 1) then 0 else 2 ^ (w - 1))
          ((st 0 % 2 ^ (w - pbits - 1) : ℕ) *
            (data (st 0 / 2 ^ (w - pbits - 1) % 2 ^ pbits)).alpha +
            (data (st 0 / 2 ^ (w - pbits - 1) % 2 ^ pbits)).beta)) (st.drop 1)) ∧
     (¬st 0 % 2 ^ (w - pbits - 1) ≤
        (data (st 0 / 2 ^ (w - pbits - 1) % 2 ^ pbits)).wedgeSwitch →
      ∀ v rest, distCentralTailedStep w pbits sig data func sxy tailEnvelope ts st ≠
        .fast v rest)) ∧
    ((st 0 % 2 ^ (w - pbits - 1) ≤
        (data (st 0 / 2 ^ (w - pbits - 1) % 2 ^ pbits)).wedgeSwitch →
      distSymmetricStep w pbits sig data func sxy x0 st =
        .fast (x0 + applySign (if st 0 < 2 ^ (w - 1) then 0 else 2 ^ (w - 1))
          ((st 0 % 2 ^ (w - pbits - 1) : ℕ) *
            (data (st 0 / 2 ^ (w - pbits - 1) % 2 ^ pbits)).alpha +
            (data (st 0 / 2 ^ (w - pbits - 1) % 2 ^ pbits)).beta)) (st.drop 1)) ∧
     (¬st 0 % 2 ^ (w - pbits - 1) ≤
        (data (st 0 / 2 ^ (w - pbits - 1) % 2 ^ pbits)).wedgeSwitch →
      ∀ v rest, distSymmetricStep w pbits sig data func sxy x0 st ≠ .fast v rest)) ∧
    ((st 0 % 2 ^ (w - pbits - 1) ≤
        (data (st 0 / 2 ^ (w - pbits - 1) % 2 ^ pbits)).wedgeSwitch →
      distSymmetricTailedStep w pbits sig data func sxy x0 tailEnvelope ts st =
        .fast (x0 + applySign (if st 0 < 2 ^ (w - 1) then 0 else 2 ^ (w - 1))
          ((st 0 % 2 ^ (w - pbits - 1) : ℕ) *
            (data (st 0 / 2 ^ (w - pbits - 1) % 2 ^ pbits)).alpha +
            (data (st 0 / 2 ^ (w - pbits - 1) % 2 ^ pbits)).beta)) (st.drop 1)) ∧
     (¬st 0 % 2 ^ (w - pbits - 1) ≤
        (data (st 0 / 2 ^ (w - pbits - 1) % 2 ^ pbits)).wedgeSwitch →
      ∀ v rest, distSymmetricTailedStep w pbits sig data func sxy x0 tailEnvelope ts st ≠
        .fast v rest)) := by
  have hiAny : st 0 >>> (w - pbits) = st 0 / 2 ^ (w - pbits) :=
    Nat.shiftRight_eq_div_pow _ _
  have huAny : st 0 &&& (1 <<< (w - pbits)) - 1 = st 0 % 2 ^ (w - pbits) :=
    mask_and_eq_mod _ _
  have huC : st 0 &&& (1 <<< (w - pbits - 1)) - 1 = st 0 % 2 ^ (w - pbits - 1) :=
    mask_and_eq_mod _ _
  have hiC : arithmeticRightShift w (st 0) (w - pbits - 1) &&& (1 <<< pbits) - 1 =
      st 0 / 2 ^ (w - pbits - 1) % 2 ^ pbits := arithShift_and_iMask hp hr
  have hsC : arithmeticRightShift w (st 0) (w - pbits - 1) &&& 1 <<< (w - 1) =
      if st 0 < 2 ^ (w - 1) then 0 else 2 ^ (w - 1) := arithShift_and_sMask hp hr
  refine ⟨⟨?_, ?_⟩, ⟨?_, ?_⟩, ⟨?_, ?_⟩, ⟨?_, ?_⟩, ⟨?_, ?_⟩, ⟨?_, ?_⟩⟩
  · intro h
    simp only [distAnyStep, huAny, hiAny]
    rw [if_pos h]
  · intro h v rest
    simp only [distAnyStep, huAny, hiAny]
    rw [if_neg h]
    split_ifs <;> simp
  · intro h
    simp only [distAnyTailedStep, huAny, hiAny]
    rw [if_pos h]
  · intro h v rest
    simp only [distAnyTailedStep, huAny, hiAny]
    rw [if_neg h]
    split_ifs <;>
      first
        | (rcases tailEnvelope (Stream'.drop 1 st) with ⟨xo, rest'⟩
           cases xo <;> simp)
        | simp
  · intro h
    simp only [distCentralStep, huC, hiC, hsC]
    rw [if_pos h]
  · intro h v rest
    simp only [distCentralStep, huC, hiC, hsC]
    rw [if_neg h]
    split_ifs <;> simp
  · intro h
    simp only [distCentralTailedStep, huC, hiC, hsC]
    rw [if_pos h]
  · intro h v rest
    simp only [distCentralTailedStep, huC, hiC, hsC]
    rw [if_neg h]
    split_ifs <;>
      first
        | (rcases tailEnvelope (Stream'.drop 1 st) with ⟨xo, rest'⟩
           cases xo <;> simp)
        | simp
  · intro h
    simp only [distSymmetricStep, huC, hiC, hsC]
    rw [if_pos h]
  · intro h v rest
    simp only [distSymmetricStep, huC, hiC, hsC]
    rw [if_neg h]
    split_ifs <;> simp
  · intro h
    simp only [distSymmetricTailedStep, huC, hiC, hsC]
    rw [if_pos h]
  · intro h v rest
    simp only [distSymmetricTailedStep, huC, hiC, hsC]
    rw [if_neg h]
    split_ifs <;>
      first
        | (rcases tailEnvelope (Stream'.drop 1 st) with ⟨xo, rest'⟩
           cases xo <;> simp)
        | simp

/-- C1 witness: `w = 16`, `pbits = 4`, word `r = 4660`: the fraction
`u = 4660 % 2^12 = 564` is below the wedge switch `4095`, so the `DistAny`
step takes the fast path with candidate `u * alpha + beta` and consumes
exactly the one word. -/
theorem claim1_witness :
    4 + 2 ≤ 16 ∧ (fun _ : ℕ => 4660) 0 < 2 ^ 16 ∧
      (4660 % 2 ^ (16 - 4) ≤
        ((fun _ : ℕ => (⟨2, 3, 4095⟩ : DatumQ)) (4660 / 2 ^ (16 - 4))).wedgeSwitch) ∧
      distAnyStep 16 4 10 (fun _ => ⟨2, 3, 4095⟩) (UnivFn.ofEval fun _ => 0) 0
          (fun _ => 4660) =
        .fast (((4660 % 2 ^ (16 - 4) : ℕ) : ℚ) * 2 + 3)
          (Stream'.drop 1 (fun _ => 4660)) := by
  refine ⟨by norm_num, by norm_num, by norm_num, ?_⟩
  exact (claim1_bit_decomposition_fast_path 16 4 10 (fun _ => ⟨2, 3, 4095⟩)
    (UnivFn.ofEval fun _ => 0) 0 (fun s => (none, s)) 0 0 (fun _ => 4660)
    (by norm_num) (by norm_num)).1.1 (by norm_num)

/-- C7.  With origin `x0 = 0`, the same table, the same function and the same
random stream, `DistCentral` and `DistSymmetric` (and their tailed versions
with the same envelope and tail area) consume the stream identically and
return equal samples: the `Central*` samplers are the `x0 = 0` specialisation
of `Symmetric*`. -/
theorem claim7_central_symmetric_equivalence (w pbits sig n : ℕ) (func : UnivFn)
    (t : InitTableQ) (tailEnvelope : Envelope) (tailArea : ℚ) (fuel : ℕ)
    (st : Stream' ℕ) :
    distCentralSample w pbits sig n func t fuel st =
      distSymmetricSample w pbits sig n 0 func t fuel st ∧
    distCentralTailedSample w pbits sig n func t tailEnvelope tailArea fuel st =
      distSymmetricTailedSample w pbits sig n 0 func t tailEnvelope tailArea fuel st := by
  constructor
  · simp only [distCentralSample, distSymmetricSample]
    congr 1
    funext s
    simp [distCentralStep, distSymmetricStep]
  · simp only [distCentralTailedSample, distSymmetricTailedSample]
    congr 1
    funext s
    simp [distCentralTailedStep, distSymmetricTailedStep]

/-- C4.  `newton_tabulation`'s loop fails exactly when the convergence
criterion is not satisfied at any of the `max_iter + 1` iterates it examines.
(The source's other failure trigger, `mean_area.is_nan()`, cannot fire in the
exact-rational embedding: no value is NaN, so the disjunct is vacuous here.) -/
theorem claim4_failure_iff_budget_exhausted (p : NewtonParams) (exts : List (ℚ × ℚ))
    (fuel : ℕ) (x : List ℚ) :
    newtonLoop p exts fuel x = .error () ↔
      ∀ k, k ≤ fuel → ¬convergedQ p exts ((newtonAdvance p exts)^[k] x) := by
  induction fuel generalizing x with
  | zero =>
    rw [newtonLoop]
    by_cases hc : convergedQ p exts x
    · rw [if_pos hc]
      constructor
      · intro h
        simp at h
      · intro h
        exact absurd hc (by simpa using h 0 (le_refl 0))
    · rw [if_neg hc]
      constructor
      · intro _ k hk
        interval_cases k
        simpa using hc
      · intro _
        rfl
  | succ fuel ih =>
    rw [newtonLoop]
    by_cases hc : convergedQ p exts x
    · rw [if_pos hc]
      constructor
      · intro h
        simp at h
      · intro h
        exact absurd hc (by simpa using h 0 (Nat.zero_le _))
    · rw [if_neg hc]
      rw [ih]
      constructor
      · intro h k hk
        match k with
        | 0 => simpa using hc
        | k + 1 =>
          rw [Function.iterate_succ_apply]
          exact h k (by omega)
      · intro h k hk
        rw [← Function.iterate_succ_apply]
        exact h (k + 1) (by omega)

/-- C6 (amended).  In the node update of `newton_tabulation`, each updated
interior node is clamped inside the interval bounded by the *already-updated*
left neighbour and the *former* right neighbour (not by the two former
neighbours); as a consequence, a (weakly) monotonic node vector stays
monotonic through every update pass. -/
theorem claim6_clamp_monotonic (relaxation : ℚ) :
    (∀ (prev xi xip1 : ℚ) (rest : List ℚ) (d : ℚ) (ds : List ℚ),
      ∃ xi', clampPass relaxation prev (xi :: xip1 :: rest) (d :: ds) =
          xi' :: clampPass relaxation xi' (xip1 :: rest) ds ∧
        min prev xip1 ≤ xi' ∧ xi' ≤ max prev xip1) ∧
    (∀ (prev : ℚ) (xs ds : List ℚ), List.Chain' (· ≤ ·) (prev :: xs) →
      List.Chain' (· ≤ ·) (prev :: clampPass relaxation prev xs ds)) := by
  have hstep : ∀ (prev xi xip1 : ℚ) (rest : List ℚ) (d : ℚ) (ds : List ℚ),
      ∃ xi', clampPass relaxation prev (xi :: xip1 :: rest) (d :: ds) =
          xi' :: clampPass relaxation xi' (xip1 :: rest) ds ∧
        min prev xip1 ≤ xi' ∧ xi' ≤ max prev xip1 := by
    intro prev xi xip1 rest d ds
    refine ⟨max (min (xi + relaxation * d)
      (if xip1 > prev then (prev, xip1) else (xip1, prev)).2)
      (if xip1 > prev then (prev, xip1) else (xip1, prev)).1, ?_, ?_, ?_⟩
    · rw [clampPass]
    · by_cases h : xip1 > prev
      · rw [if_pos h]
        simp only
        have : min prev xip1 = prev := min_eq_left (le_of_lt h)
        rw [this]
        exact le_max_right _ _
      · rw [if_neg h]
        simp only
        have : min prev xip1 = xip1 := min_eq_right (le_of_not_lt h)
        rw [this]
        exact le_max_right _ _
    · by_cases h : xip1 > prev
      · rw [if_pos h]
        simp only
        have hmx : max prev xip1 = xip1 := max_eq_right (le_of_lt h)
        rw [hmx]
        exact max_le (min_le_right _ _) (le_of_lt h)
      · rw [if_neg h]
        simp only
        have hmx : max prev xip1 = prev := max_eq_left (le_of_not_lt h)
        rw [hmx]
        exact max_le (min_le_right _ _) (le_of_not_lt h)
  refine ⟨hstep, ?_⟩
  intro prev xs ds hchain
  induction xs generalizing prev ds with
  | nil =>
    cases ds with
    | nil => exact hchain
    | cons d ds => exact hchain
  | cons xi rest ih =>
    cases ds with
    | nil => simpa [clampPass] using hchain
    | cons d ds =>
      cases rest with
      | nil => simpa [clampPass] using hchain
      | cons xip1 rest' =>
        obtain ⟨xi', heq, hlo, hhi⟩ := hstep prev xi xip1 rest' d ds
        rw [heq]
        rw [List.chain'_cons] at hchain
        obtain ⟨h01, hchain1⟩ := hchain
        rw [List.chain'_cons] at hchain1
        obtain ⟨h12, hchain2⟩ := hchain1
        have hple : prev ≤ xip1 := le_trans h01 h12
        have hprev_xi' : prev ≤ xi' := by
          rw [min_eq_left hple] at hlo
          exact hlo
        have hxi'_xip1 : xi' ≤ xip1 := by
          rw [max_eq_right hple] at hhi
          exact hhi
        exact List.chain'_cons.mpr ⟨hprev_xi',
          ih xi' ds (List.chain'_cons.mpr ⟨hxi'_xip1, hchain2⟩)⟩

/-- C6 witness: with relaxation `1`, former nodes `0, 1, 2` and update `+5`
for the middle node, the clamped pass keeps the vector monotonic. -/
theorem claim6_witness :
    List.Chain' (· ≤ ·) ((0 : ℚ) :: [1, 2]) ∧
      List.Chain' (· ≤ ·) ((0 : ℚ) :: clampPass 1 0 [1, 2] [5]) :=
  ⟨by norm_num [List.chain'_cons], (claim6_clamp_monotonic 1).2 0 [1, 2] [5]
    (by norm_num [List.chain'_cons])⟩

/-- C6 counterexample.  One Newton iteration on nodes `[0, 10, 11, 12]` with
`f = 1`, `df = 0`, relaxation `1` (no convergence: the areas are `10, 1, 1`)
updates the nodes to `[0, 4, 8, 12]`: the updated `x[2] = 8` lies *outside*
the interval bounded by the former positions of its neighbours
(`x[1] = 10`, `x[3] = 12`), because the code clamps against the
already-updated `x[1] = 4` instead. -/
theorem claim6_counterexample :
    ¬convergedQ ⟨fun _ => 1, fun _ => 0, 1 / 1000, 1⟩ [] [0, 10, 11, 12] ∧
      newtonAdvance ⟨fun _ => 1, fun _ => 0, 1 / 1000, 1⟩ [] [0, 10, 11, 12] =
        [0, 4, 8, 12] ∧
      ¬((10 : ℚ) ≤ 8 ∧ (8 : ℚ) ≤ 12) := by
  refine ⟨?_, ?_, by norm_num⟩
  · norm_num [convergedQ, supData, supScanAux, absorbSup, yAt, dyAt, areasOf,
      maxAreaOf, minAreaOf, sumAreaOf, meanAreaOf, List.range_succ]
  · norm_num [newtonAdvance, supData, supScanAux, absorbSup, yAt, dyAt, solveTma,
      tmaFwdAux, tmaBackAux, clampPass, List.range_succ]

theorem getD_map_range (f : ℕ → ℚ) {n i : ℕ} (h : i < n) :
    ((List.range n).map f).getD i 0 = f i := by
  rw [List.getD_eq_getElem?_getD, List.getElem?_map, List.getElem?_range h]
  rfl

theorem ite_lt_eq_min (a b : ℚ) : (if b < a then b else a) = min a b := by
  rcases lt_or_le b a with h | h
  · rw [if_pos h, min_eq_right (le_of_lt h)]
  · rw [if_neg (not_lt.mpr h), min_eq_left h]

theorem absorbInf_spec (xl xr : ℚ) :
    ∀ (exts : List (ℚ × ℚ)) (acc : ℚ),
      (∀ q ∈ exts, xl < q.1) →
      List.Pairwise (fun a b : ℚ × ℚ => a.1 ≤ b.1) exts →
      absorbInf xl xr exts acc =
        (((exts.filter fun q => decide (q.1 ≤ xr)).map Prod.snd).foldl min acc,
          exts.filter fun q => decide (xr < q.1)) := by
  intro exts
  induction exts with
  | nil =>
    intro acc _ _
    rfl
  | cons hd tl ih =>
    intro acc hall hpw
    obtain ⟨xe, ye⟩ := hd
    have hxl : xl < xe := hall _ (List.mem_cons_self _ _)
    have halltl : ∀ q ∈ tl, xl < q.1 := fun q hq => hall q (List.mem_cons_of_mem _ hq)
    rw [List.pairwise_cons] at hpw
    obtain ⟨hhd, hpwtl⟩ := hpw
    rw [absorbInf]
    by_cases hc : xe ≤ xr
    · have hcond : ((decide ((xe, ye).1 > xl)) != (decide ((xe, ye).1 > xr))) = true := by
        simp only [gt_iff_lt]
        rw [decide_eq_true hxl, decide_eq_false (not_lt.mpr hc)]
        rfl
      rw [if_pos hcond]
      have hmin : (if ye < acc then ye else acc) = min acc ye := ite_lt_eq_min acc ye
      rw [show ((xe, ye).1 = xe) from rfl] at *
      rw [hmin, ih (min acc ye) halltl hpwtl]
      have hfk : List.filter (fun q => decide (q.1 ≤ xr)) ((xe, ye) :: tl) =
          (xe, ye) :: List.filter (fun q => decide (q.1 ≤ xr)) tl := by
        rw [List.filter_cons]
        simp [hc]
      have hfk2 : List.filter (fun q => decide (xr < q.1)) ((xe, ye) :: tl) =
          List.filter (fun q => decide (xr < q.1)) tl := by
        rw [List.filter_cons]
        simp [not_lt.mpr hc]
      rw [hfk, hfk2]
      simp
    · have hcond : ((decide ((xe, ye).1 > xl)) != (decide ((xe, ye).1 > xr))) = false := by
        simp only [gt_iff_lt]
        rw [decide_eq_true hxl, decide_eq_true (lt_of_not_le hc)]
        rfl
      rw [if_neg (by rw [hcond]; exact Bool.false_ne_true)]
      have hxrlt : xr < xe := lt_of_not_le hc
      have hfk : List.filter (fun q => decide (q.1 ≤ xr)) ((xe, ye) :: tl) = [] := by
        rw [List.filter_eq_nil_iff]
        intro q hq
        rcases List.mem_cons.mp hq with h | h
        · subst h
          simpa using hc
        · have : xe ≤ q.1 := hhd q h
          simp only [decide_eq_true_eq]
          push_neg
          linarith
      have hfk2 : List.filter (fun q => decide (xr < q.1)) ((xe, ye) :: tl) =
          (xe, ye) :: tl := by
        rw [List.filter_eq_self]
        intro q hq
        rcases List.mem_cons.mp hq with h | h
        · subst h
          simpa using hxrlt
        · have : xe ≤ q.1 := hhd q h
          simp only [decide_eq_true_eq]
          linarith
      rw [hfk, hfk2]
      simp

theorem infScanAux_filter (x y : ℕ → ℚ) :
    ∀ (rem i : ℕ) (exts : List (ℚ × ℚ)),
      (∀ q ∈ exts, x i < q.1) →
      List.Pairwise (fun a b : ℚ × ℚ => a.1 ≤ b.1) exts →
      (∀ a b, i ≤ a → a ≤ b → b ≤ i + rem → x a ≤ x b) →
      infScanAux x y i rem exts = (List.range rem).map fun k =>
        ((exts.filter fun q =>
            decide (x (i + k) < q.1) && decide (q.1 ≤ x (i + k + 1))).map Prod.snd).foldl
          min (min (y (i + k)) (y (i + k + 1))) := by
  intro rem
  induction rem with
  | zero =>
    intro i exts _ _ _
    rfl
  | succ rem ih =>
    intro i exts hall hpw hmono
    rw [infScanAux]
    have hbase : (if y i > y (i + 1) then y (i + 1) else y i) = min (y i) (y (i + 1)) :=
      ite_lt_eq_min (y i) (y (i + 1))
    rw [absorbInf_spec (x i) (x (i + 1)) exts _ hall hpw]
    have hfilter_head : (exts.filter fun q => decide (q.1 ≤ x (i + 1))) =
        exts.filter fun q => decide (x (i + 0) < q.1) && decide (q.1 ≤ x (i + 0 + 1)) := by
      apply List.filter_congr
      intro q hq
      have := hall q hq
      simp only [Nat.add_zero]
      rw [decide_eq_true this]
      simp
    have hmono' : ∀ a b, i + 1 ≤ a → a ≤ b → b ≤ i + 1 + rem → x a ≤ x b := by
      intro a b h1 h2 h3
      exact hmono a b (by omega) h2 (by omega)
    have hall' : ∀ q ∈ exts.filter fun q => decide (x (i + 1) < q.1), x (i + 1) < q.1 := by
      intro q hq
      have := List.of_mem_filter hq
      simpa using this
    have htail := ih (i + 1) (exts.filter fun q => decide (x (i + 1) < q.1)) hall'
      (List.Pairwise.filter _ hpw) hmono'
    rw [htail]
    rw [List.range_succ_eq_map, List.map_cons, List.map_map]
    congr 1
    · rw [hbase, hfilter_head]
      simp
    · apply List.map_congr_left
      intro k hk
      have hkrange : k < rem := List.mem_range.mp hk
      simp only [Function.comp_apply, Nat.succ_eq_add_one]
      have hidx1 : i + 1 + k = i + (k + 1) := by omega
      rw [hidx1]
      congr 1
      rw [List.filter_filter]
      congr 1
      apply List.filter_congr
      intro q hq
      have hx1q : x (i + 1) ≤ x (i + (k + 1)) := hmono (i + 1) (i + (k + 1)) (by omega)
        (by omega) (by omega)
      by_cases hql : x (i + (k + 1)) < q.1
      · have : x (i + 1) < q.1 := lt_of_le_of_lt hx1q hql
        rw [decide_eq_true hql, decide_eq_true this]
        simp
      · rw [decide_eq_false hql]
        simp

theorem newtonLoop_ok (p : NewtonParams) (exts : List (ℚ × ℚ)) :
    ∀ (fuel : ℕ) (x : List ℚ) (t : InitTableL), newtonLoop p exts fuel x = .ok t →
      ∃ k, k ≤ fuel ∧ convergedQ p exts ((newtonAdvance p exts)^[k] x) ∧
        t = newtonExitTable p exts ((newtonAdvance p exts)^[k] x) := by
  intro fuel
  induction fuel with
  | zero =>
    intro x t h
    rw [newtonLoop] at h
    by_cases hc : convergedQ p exts x
    · rw [if_pos hc] at h
      refine ⟨0, le_refl 0, by simpa using hc, ?_⟩
      simpa using (Except.ok.inj h).symm
    · rw [if_neg hc] at h
      exact absurd h (by simp)
  | succ fuel ih =>
    intro x t h
    rw [newtonLoop] at h
    by_cases hc : convergedQ p exts x
    · rw [if_pos hc] at h
      refine ⟨0, Nat.zero_le _, by simpa using hc, ?_⟩
      simpa using (Except.ok.inj h).symm
    · rw [if_neg hc] at h
      obtain ⟨k, hk, hconv, ht⟩ := ih (newtonAdvance p exts x) t h
      refine ⟨k + 1, by omega, ?_, ?_⟩
      · rw [Function.iterate_succ_apply]
        exact hconv
      · rw [Function.iterate_succ_apply]
        exact ht

/-- C3 (amended).  Whenever `newton_tabulation` succeeds, it does so through
the convergence exit — taken at the first iterate where
`max_area - min_area < tolerance * (sum_area/N)` holds *strictly* (the code
uses `<`, not `≤`) — and the returned table carries that iterate's nodes, its
`ysup[i]` inflated to `max_area / |x[i+1] - x[i]|`, and (for monotone nodes
and sorted interior extrema) its `yinf[i]` equal to the smaller of `f(x[i])`
and `f(x[i+1])` lowered by every interior extremum value below it. -/
theorem claim3_newton_exit_table (p : NewtonParams) (exts : List (ℚ × ℚ)) (fuel : ℕ)
    (x : List ℚ) (t : InitTableL) (h : newtonLoop p exts fuel x = .ok t) :
    ∃ k xk, xk = (newtonAdvance p exts)^[k] x ∧ k ≤ fuel ∧
      convergedQ p exts xk ∧
      t.x = xk ∧
      (∀ i, i < xk.length - 1 →
        t.ysup.getD i 0 = maxAreaOf (areasOf xk (supData p exts xk)) /
          |xk.getD (i + 1) 0 - xk.getD i 0|) ∧
      ((∀ q ∈ exts, xk.getD 0 0 < q.1) →
        List.Pairwise (fun a b : ℚ × ℚ => a.1 ≤ b.1) exts →
        (∀ a b, a ≤ b → b ≤ xk.length - 1 → xk.getD a 0 ≤ xk.getD b 0) →
        ∀ i, i < xk.length - 1 →
          t.yinf.getD i 0 =
            ((exts.filter fun q => decide (xk.getD i 0 < q.1) &&
                decide (q.1 ≤ xk.getD (i + 1) 0)).map Prod.snd).foldl min
              (min (p.f (xk.getD i 0)) (p.f (xk.getD (i + 1) 0)))) := by
  obtain ⟨k, hk, hconv, ht⟩ := newtonLoop_ok p exts fuel x t h
  refine ⟨k, (newtonAdvance p exts)^[k] x, rfl, hk, hconv, ?_, ?_, ?_⟩
  · rw [ht]
    rfl
  · intro i hi
    rw [ht]
    show ((List.range (((newtonAdvance p exts)^[k] x).length - 1)).map fun i =>
      maxAreaOf (areasOf ((newtonAdvance p exts)^[k] x)
          (supData p exts ((newtonAdvance p exts)^[k] x))) /
        |((newtonAdvance p exts)^[k] x).getD (i + 1) 0 -
          ((newtonAdvance p exts)^[k] x).getD i 0|).getD i 0 = _
    rw [getD_map_range _ hi]
  · intro hall hpw hmono i hi
    rw [ht]
    show (infScanAux (fun j => ((newtonAdvance p exts)^[k] x).getD j 0)
      (yAt p ((newtonAdvance p exts)^[k] x)) 0
      (((newtonAdvance p exts)^[k] x).length - 1) exts).getD i 0 = _
    rw [infScanAux_filter (fun j => ((newtonAdvance p exts)^[k] x).getD j 0)
      (yAt p ((newtonAdvance p exts)^[k] x)) (((newtonAdvance p exts)^[k] x).length - 1) 0
      exts hall hpw (fun a b _ h2 h3 => hmono a b h2 (by omega))]
    rw [getD_map_range _ hi]
    simp only [Nat.zero_add]
    rfl

/-- C3 counterexample.  The claim states the convergence exit is taken when
`max_area - min_area ≤ tolerance * (sum_area/N)`: on nodes `[0, 1, 2]` with
`f(q) = 1 + q/2` and tolerance `2/7`, the spread equals the threshold exactly
(`1/2 = (2/7) * (7/4)`), yet the loop (with the budget exhausted) returns the
tabulation failure — the code exits only on the strict inequality. -/
theorem claim3_counterexample :
    maxAreaOf (areasOf [0, 1, 2]
        (supData ⟨fun q => 1 + q / 2, fun _ => 1 / 2, 2 / 7, 1⟩ [] [0, 1, 2])) -
      minAreaOf (areasOf [0, 1, 2]
        (supData ⟨fun q => 1 + q / 2, fun _ => 1 / 2, 2 / 7, 1⟩ [] [0, 1, 2])) =
      (2 / 7 : ℚ) * meanAreaOf 2 (areasOf [0, 1, 2]
        (supData ⟨fun q => 1 + q / 2, fun _ => 1 / 2, 2 / 7, 1⟩ [] [0, 1, 2])) ∧
    newtonLoop ⟨fun q => 1 + q / 2, fun _ => 1 / 2, 2 / 7, 1⟩ [] 0 [0, 1, 2] =
      .error () := by
  constructor
  · norm_num [supData, supScanAux, absorbSup, yAt, dyAt, areasOf, maxAreaOf,
      minAreaOf, sumAreaOf, meanAreaOf, List.range_succ]
  · have hnc : ¬convergedQ ⟨fun q => 1 + q / 2, fun _ => 1 / 2, 2 / 7, 1⟩ [] [0, 1, 2] := by
      unfold convergedQ
      norm_num [supData, supScanAux, absorbSup, yAt, dyAt, areasOf, maxAreaOf,
        minAreaOf, sumAreaOf, meanAreaOf, List.range_succ]
    rw [newtonLoop, if_neg hnc]

/-- C3 witness: with `f = 1` on nodes `[0, 1, 2]` and tolerance `1/10` the
loop converges at the first iterate and returns the table
`x = [0,1,2]`, `yinf = [1,1]`, `ysup = [1,1]`. -/
theorem claim3_witness :
    newtonLoop ⟨fun _ => 1, fun _ => 0, 1 / 10, 1⟩ [] 10 [0, 1, 2] =
      .ok ⟨[0, 1, 2], [1, 1], [1, 1]⟩ ∧
    (∃ k xk,
      xk = (newtonAdvance ⟨fun _ => 1, fun _ => 0, 1 / 10, 1⟩ [])^[k] [0, 1, 2] ∧
      k ≤ 10 ∧
      convergedQ ⟨fun _ => 1, fun _ => 0, 1 / 10, 1⟩ [] xk ∧
      (⟨[0, 1, 2], [1, 1], [1, 1]⟩ : InitTableL).x = xk ∧
      (∀ i, i < xk.length - 1 →
        (⟨[0, 1, 2], [1, 1], [1, 1]⟩ : InitTableL).ysup.getD i 0 =
          maxAreaOf (areasOf xk
              (supData ⟨fun _ => 1, fun _ => 0, 1 / 10, 1⟩ [] xk)) /
            |xk.getD (i + 1) 0 - xk.getD i 0|) ∧
      ((∀ q ∈ ([] : List (ℚ × ℚ)), xk.getD 0 0 < q.1) →
        List.Pairwise (fun a b : ℚ × ℚ => a.1 ≤ b.1) ([] : List (ℚ × ℚ)) →
        (∀ a b, a ≤ b → b ≤ xk.length - 1 → xk.getD a 0 ≤ xk.getD b 0) →
        ∀ i, i < xk.length - 1 →
          (⟨[0, 1, 2], [1, 1], [1, 1]⟩ : InitTableL).yinf.getD i 0 =
            ((([] : List (ℚ × ℚ)).filter fun q => decide (xk.getD i 0 < q.1) &&
                decide (q.1 ≤ xk.getD (i + 1) 0)).map Prod.snd).foldl min
              (min ((1 : ℚ)) (1 : ℚ)))) := by
  have hc : convergedQ ⟨fun _ => 1, fun _ => 0, 1 / 10, 1⟩ [] [0, 1, 2] := by
    unfold convergedQ
    norm_num [supData, supScanAux, absorbSup, yAt, dyAt, areasOf, maxAreaOf,
      minAreaOf, sumAreaOf, meanAreaOf, List.range_succ]
  have hrun : newtonLoop ⟨fun _ => 1, fun _ => 0, 1 / 10, 1⟩ [] 10 [0, 1, 2] =
      .ok ⟨[0, 1, 2], [1, 1], [1, 1]⟩ := by
    rw [newtonLoop, if_pos hc]
    congr 1
    norm_num [newtonExitTable, infScanAux, absorbInf, areasOf, maxAreaOf, supData,
      supScanAux, absorbSup, yAt, dyAt, List.range_succ]
  refine ⟨hrun, ?_⟩
  have hmain := claim3_newton_exit_table ⟨fun _ => 1, fun _ => 0, 1 / 10, 1⟩ [] 10
    [0, 1, 2] ⟨[0, 1, 2], [1, 1], [1, 1]⟩ hrun
  obtain ⟨k, xk, hxk, hk, hcv, hx, hsup, hinf⟩ := hmain
  exact ⟨k, xk, hxk, hk, hcv, hx, hsup, fun h1 h2 h3 i hi => hinf h1 h2 h3 i hi⟩

/-- C4 witness: on the equality-threshold input with a zero iteration budget
the loop fails, and indeed no iterate up to the budget converges. -/
theorem claim4_witness :
    newtonLoop ⟨fun q => 1 + q / 2, fun _ => 1 / 2, 2 / 7, 1⟩ [] 0 [0, 1, 2] =
        .error () ↔
      ∀ k, k ≤ 0 → ¬convergedQ ⟨fun q => 1 + q / 2, fun _ => 1 / 2, 2 / 7, 1⟩ []
        ((newtonAdvance ⟨fun q => 1 + q / 2, fun _ => 1 / 2, 2 / 7, 1⟩ [])^[k]
          [0, 1, 2]) :=
  claim4_failure_iff_budget_exhausted ⟨fun q => 1 + q / 2, fun _ => 1 / 2, 2 / 7, 1⟩
    [] 0 [0, 1, 2]

/-- C5 witness: for the Cauchy constructor with `scale = 1 > 0` and a
successful tabulation, construction succeeds and no parameter error occurs. -/
theorem claim5_witness :
    ¬(1 : ℚ) ≤ 0 ∧
      (@cauchyNew Unit 0 1 (.ok ()) = .ok () ↔ (.ok () : Except Unit Unit) = .ok ()) ∧
      (@cauchyNew Unit 0 1 (.ok ()) = .error .tabulationFailure ↔
        (.ok () : Except Unit Unit) = .error ()) :=
  ⟨by norm_num,
    (claim5_constructor_validation Unit 0 1 0 1 1 2 (.ok ())).2.2.2.2.2.2.2.1
      (by norm_num) ()⟩

end Etf
